import Mathlib

/-!
Verification of the permission and content-editing model of the fa-wiki
repository (src/models.py, src/auth.py, src/app.py).

Python strings are embedded as `List Char` (`Str`), Python dicts produced by
`json.loads` as association lists with dict-update semantics, and the
database as an explicit `World` record threaded through the request
handlers.  JSON numbers are modelled as integers.
-/

namespace FaWiki

/-- Python `str` embedded as a list of characters. -/
abbrev Str := List Char

/-- Coerce a Lean string literal to the embedded string type. -/
def chars (s : String) : Str := s.data

/-- Python `s.startswith(p)`. -/
def strStartsWith : Str → Str → Bool
  | _, [] => true
  | [], _ :: _ => false
  | c :: cs, d :: ds => c == d && strStartsWith cs ds

/-- Python `s.endswith(p)`. -/
def strEndsWith (s p : Str) : Bool :=
  strStartsWith s.reverse p.reverse

/-- Python `s[:-n]` for `n ≥ 0`: everything but the last `n` characters. -/
def strDropRight (s : Str) (n : Nat) : Str :=
  s.take (s.length - n)

/-- Python `s.replace('-', ' ')`. -/
def dashToSpace (s : Str) : Str :=
  s.map fun c => if c = '-' then ' ' else c

/-- Python `s.title()` restricted to the ASCII letters that occur in slugs:
a letter is uppercased when the previous character is not a letter and
lowercased otherwise; non-letters pass through and reset the word. -/
def pyTitleGo : Bool → Str → Str
  | _, [] => []
  | prevAlpha, c :: cs =>
    if c.isAlpha then
      (if prevAlpha then c.toLower else c.toUpper) :: pyTitleGo true cs
    else
      c :: pyTitleGo false cs

/-- Python `s.title()`. -/
def pyTitle (s : Str) : Str := pyTitleGo false s

/-- `slug.replace('-', ' ').title()`, the title humanization used by the
page-creating routes in src/app.py (lines 190, 270, 333, 360). -/
def humanizeSlug (slug : Str) : Str := pyTitle (dashToSpace slug)

/-- The part of a slug after its last `/` (the final path segment). -/
def lastSegment (s : Str) : Str :=
  ((s.reverse.takeWhile fun c => c ≠ '/').reverse)

/-! ## Permission model (src/models.py, src/auth.py) -/

/-- A row of `editor_permissions` (src/models.py lines 42-49). -/
structure EditorPermission where
  pageSlug : Str
  sectionId : Option Str
  canEdit : Bool
deriving Repr, DecidableEq

/-- The section test of `User.has_permission` (src/models.py lines 35 and 38):
`section_id is None or perm.section_id is None or perm.section_id == section_id`. -/
def sectionMatches (permSection querySection : Option Str) : Bool :=
  querySection.isNone || permSection.isNone || permSection == querySection

/-- One iteration of the loop of `User.has_permission` (src/models.py lines
29-39): `some b` when the loop returns `b` at this grant, `none` when it
falls through to the next grant.  The three `if` statements of the source
run in sequence; the second one may page-match yet fail its section test,
after which the third (exact equality) test still runs. -/
def permissionStep (perm : EditorPermission) (pageSlug : Str)
    (sectionId : Option Str) : Option Bool :=
  if perm.pageSlug == chars "*" then
    some true
  else
    let fromPrefixPattern : Option Bool :=
      if strEndsWith perm.pageSlug (chars "/*") then
        let pref := strDropRight perm.pageSlug 2
        if strStartsWith pageSlug pref then
          if sectionMatches perm.sectionId sectionId then some perm.canEdit
          else none
        else none
      else none
    match fromPrefixPattern with
    | some b => some b
    | none =>
      if perm.pageSlug == pageSlug then
        if sectionMatches perm.sectionId sectionId then some perm.canEdit
        else none
      else none

/-- `User.has_permission` (src/models.py lines 27-40): iterate the user's
grants in stored (insertion) order and return at the first grant that
decides; `False` when none does. -/
def hasPermission (perms : List EditorPermission) (pageSlug : Str)
    (sectionId : Option Str) : Bool :=
  match perms with
  | [] => false
  | perm :: rest =>
    match permissionStep perm pageSlug sectionId with
    | some b => b
    | none => hasPermission rest pageSlug sectionId

/-- A row of `users` together with its owned grants (src/models.py lines 9-19). -/
structure UserRec where
  username : Str
  permissions : List EditorPermission
deriving Repr, DecidableEq

/-- `can_edit` (src/auth.py lines 49-53): the caller is `none` when there is
no authenticated current user, in which case the check is `False` outright. -/
def canEdit (caller : Option UserRec) (pageSlug : Str)
    (sectionId : Option Str) : Bool :=
  match caller with
  | none => false
  | some u => hasPermission u.permissions pageSlug sectionId

/-! ## The specification's wording of the permission check

These definitions follow the words of the specification (spec.md §4.1 and
§8) rather than the source; they exist to be compared against
`hasPermission`. -/

/-- Page-pattern matching as the specification words it: `*` matches every
slug; a pattern ending in `/*` matches the slugs starting with the pattern
minus the trailing `*` (keeping the slash); otherwise exact equality. -/
def specPageMatches (pat slug : Str) : Bool :=
  if pat == chars "*" then true
  else if strEndsWith pat (chars "/*") then strStartsWith slug (strDropRight pat 1)
  else pat == slug

/-- `authorize` as claim C1 words it: the first grant that matches page AND
section returns its `can_edit`; `false` when no grant matches. -/
def specAuthorize (perms : List EditorPermission) (slug : Str)
    (sect : Option Str) : Bool :=
  ((perms.find? fun p =>
      specPageMatches p.pageSlug slug && sectionMatches p.sectionId sect).map
    EditorPermission.canEdit).getD false

/-- Decision of a single grant per the amended claim: a `*` grant
immediately yields `true` (its `can_edit` and section are ignored);
otherwise a grant whose page matches per the code (slug starts with the
pattern minus its final two characters, or exact equality) and whose
section matches yields its `can_edit`. -/
def amendedStep (p : EditorPermission) (slug : Str) (sect : Option Str) :
    Option Bool :=
  if p.pageSlug == chars "*" then some true
  else if (strEndsWith p.pageSlug (chars "/*")
            && strStartsWith slug (strDropRight p.pageSlug 2))
          || p.pageSlug == slug then
    if sectionMatches p.sectionId sect then some p.canEdit else none
  else none

/-- The amended authorization contract: the first grant that decides wins. -/
def amendedAuthorize (perms : List EditorPermission) (slug : Str)
    (sect : Option Str) : Bool :=
  (perms.findSome? fun p => amendedStep p slug sect).getD false

/-! ## JSON documents (the `json` standard library as used by src/models.py)

`json.dumps`/`json.loads` are embedded over the document type below.
JSON numbers are modelled as integers; dicts are association lists in
insertion order, assignment to an existing key updating it in place
(Python dict semantics). -/

mutual
/-- A JSON value as stored in the `content_json` columns. -/
inductive Json where
  | null : Json
  | bool (b : Bool) : Json
  | num (n : Int) : Json
  | str (s : Str) : Json
  | arr (elems : JsonList) : Json
  | obj (fields : JsonFields) : Json
deriving Repr

/-- A list of JSON values. -/
inductive JsonList where
  | nil : JsonList
  | cons (hd : Json) (tl : JsonList) : JsonList
deriving Repr

/-- The key/value fields of a JSON object, in insertion order. -/
inductive JsonFields where
  | nil : JsonFields
  | cons (key : Str) (value : Json) (tl : JsonFields) : JsonFields
deriving Repr
end

/-- Dict lookup `d.get(k)` on an object's fields. -/
def getKey (kvs : JsonFields) (k : Str) : Option Json :=
  match kvs with
  | .nil => none
  | .cons k' v tl => if k' = k then some v else getKey tl k

/-- Dict assignment `d[k] = v`: update an existing key in place, else
append at the end (Python dict insertion-order semantics). -/
def insertKey (kvs : JsonFields) (k : Str) (v : Json) : JsonFields :=
  match kvs with
  | .nil => .cons k v .nil
  | .cons k' v' tl =>
    if k' = k then .cons k' v tl else .cons k' v' (insertKey tl k v)

/-- Building a dict from parsed key/value pairs in order, later duplicate
keys overwriting earlier ones in place, as `json.loads` does. -/
def buildDict (acc : JsonFields) : JsonFields → JsonFields
  | .nil => acc
  | .cons k v tl => buildDict (insertKey acc k v) tl

/-- Membership of a key among an object's fields. -/
def keyMem (k : Str) : JsonFields → Bool
  | .nil => false
  | .cons k' _ tl => if k' = k then true else keyMem k tl

mutual
/-- Well-formedness of a document: every object has pairwise distinct keys
(true of everything a Python dict can hold). -/
def wfJ : Json → Bool
  | .null | .bool _ | .num _ | .str _ => true
  | .arr es => wfL es
  | .obj kvs => nodupKeys kvs && wfF kvs

/-- All elements well-formed. -/
def wfL : JsonList → Bool
  | .nil => true
  | .cons e tl => wfJ e && wfL tl

/-- All field values well-formed. -/
def wfF : JsonFields → Bool
  | .nil => true
  | .cons _ v tl => wfJ v && wfF tl

/-- Pairwise distinct keys. -/
def nodupKeys : JsonFields → Bool
  | .nil => true
  | .cons k _ tl => !keyMem k tl && nodupKeys tl
end

/-- Lowercase hexadecimal digit, as emitted by `json.dumps` escapes. -/
def hexDigit (n : Nat) : Char :=
  (chars "0123456789abcdef").getD n '0'

/-- Numeric value of one hexadecimal digit, as accepted by `json.loads`. -/
def hexVal (c : Char) : Option Nat :=
  if c.isDigit then some (c.toNat - 48)
  else if 97 ≤ c.toNat && c.toNat ≤ 102 then some (c.toNat - 87)
  else if 65 ≤ c.toNat && c.toNat ≤ 70 then some (c.toNat - 55)
  else none

/-- How `json.dumps` renders one character inside a string literal:
quote, backslash and the five shorthand control characters get two-character
escapes, the remaining control characters get `\u00XX`, everything else is
emitted literally. -/
def escapeChar (c : Char) : Str :=
  if c = '"' then ['\\', '"']
  else if c = '\\' then ['\\', '\\']
  else if c = '\n' then ['\\', 'n']
  else if c = '\t' then ['\\', 't']
  else if c = '\r' then ['\\', 'r']
  else if c.toNat = 8 then ['\\', 'b']
  else if c.toNat = 12 then ['\\', 'f']
  else if c.toNat < 32 then
    ['\\', 'u', '0', '0', hexDigit (c.toNat / 16), hexDigit (c.toNat % 16)]
  else [c]

/-- `json.dumps` of a string, quotes included. -/
def dumpStr (s : Str) : Str :=
  '"' :: (s.map escapeChar).flatten ++ ['"']

/-- Decimal digits of a positive number, most significant first, with a
structural fuel bound so the definition evaluates in the kernel. -/
def natCharsGo : Nat → Nat → Str
  | 0, _ => []
  | Nat.succ fuel, n =>
    if n = 0 then [] else natCharsGo fuel (n / 10) ++ [hexDigit (n % 10)]

/-- Decimal digits of a natural number, most significant first. -/
def natChars (n : Nat) : Str :=
  if n = 0 then ['0'] else natCharsGo (n + 1) n

/-- `json.dumps` of an integer. -/
def dumpInt (n : Int) : Str :=
  if n < 0 then '-' :: natChars (-n).toNat else natChars n.toNat

mutual
/-- `json.dumps` with its default separators `", "` and `": "`. -/
def dumpsV : Json → Str
  | .null => chars "null"
  | .bool true => chars "true"
  | .bool false => chars "false"
  | .num n => dumpInt n
  | .str s => dumpStr s
  | .arr es => '[' :: (dumpsL es ++ [']'])
  | .obj kvs => '\x7b' :: (dumpsF kvs ++ ['\x7d'])

/-- Array elements joined by `", "`. -/
def dumpsL : JsonList → Str
  | .nil => []
  | .cons e .nil => dumpsV e
  | .cons e (.cons e' tl) => dumpsV e ++ (',' :: ' ' :: dumpsL (.cons e' tl))

/-- Object fields `"key": value` joined by `", "`. -/
def dumpsF : JsonFields → Str
  | .nil => []
  | .cons k v .nil => dumpStr k ++ (':' :: ' ' :: dumpsV v)
  | .cons k v (.cons k' v' tl) =>
    dumpStr k ++ (':' :: ' ' :: dumpsV v) ++
      (',' :: ' ' :: dumpsF (.cons k' v' tl))
end

/-- JSON whitespace skipping, as `json.loads` does between tokens. -/
def skipWs : Str → Str
  | [] => []
  | c :: cs =>
    if c = ' ' || c = '\t' || c = '\n' || c = '\r' then skipWs cs else c :: cs

/-- Parse the body of a string literal after its opening quote, decoding
escapes, up to the closing quote.  Raw control characters are rejected, as
`json.loads` does in strict mode. -/
def parseStrBody : Str → Option (Str × Str)
  | [] => none
  | c :: rest =>
    if c = '"' then some ([], rest)
    else if c = '\\' then
      match rest with
      | [] => none
      | e :: rest2 =>
        if e = '"' then (parseStrBody rest2).map fun (s, r) => ('"' :: s, r)
        else if e = '\\' then (parseStrBody rest2).map fun (s, r) => ('\\' :: s, r)
        else if e = '/' then (parseStrBody rest2).map fun (s, r) => ('/' :: s, r)
        else if e = 'n' then (parseStrBody rest2).map fun (s, r) => ('\n' :: s, r)
        else if e = 't' then (parseStrBody rest2).map fun (s, r) => ('\t' :: s, r)
        else if e = 'r' then (parseStrBody rest2).map fun (s, r) => ('\r' :: s, r)
        else if e = 'b' then (parseStrBody rest2).map fun (s, r) => (Char.ofNat 8 :: s, r)
        else if e = 'f' then (parseStrBody rest2).map fun (s, r) => (Char.ofNat 12 :: s, r)
        else if e = 'u' then
          match rest2 with
          | h1 :: h2 :: h3 :: h4 :: rest3 =>
            match hexVal h1, hexVal h2, hexVal h3, hexVal h4 with
            | some a, some b, some c, some d =>
              (parseStrBody rest3).map fun (s, r) =>
                (Char.ofNat (4096 * a + 256 * b + 16 * c + d) :: s, r)
            | _, _, _, _ => none
          | _ => none
        else none
    else if c.toNat < 32 then none
    else (parseStrBody rest).map fun (s, r) => (c :: s, r)

/-- Consume a maximal run of decimal digits, accumulating their value. -/
def parseDigits (acc : Nat) : Str → (Nat × Str)
  | [] => (acc, [])
  | c :: cs =>
    if c.isDigit then parseDigits (acc * 10 + (c.toNat - 48)) cs
    else (acc, c :: cs)

/-- Parse an integer literal (an optional minus sign and at least one
digit).  Fractional and exponent forms of the source's `json.loads` are
outside this embedding, which models numbers as integers. -/
def parseIntTok : Str → Option (Int × Str)
  | [] => none
  | c :: cs =>
    if c = '-' then
      match cs with
      | [] => none
      | d :: _ =>
        if d.isDigit then
          let (n, r) := parseDigits 0 cs
          some (-(n : Int), r)
        else none
    else if c.isDigit then
      let (n, r) := parseDigits 0 (c :: cs)
      some ((n : Int), r)
    else none

mutual
/-- Fuel-bounded recursive-descent value parser for `json.loads`.  The
fuel only bounds nesting and element count; `parse` below supplies enough
for any input. -/
def parseVal : Nat → Str → Option (Json × Str)
  | 0, _ => none
  | Nat.succ fuel, s =>
    match skipWs s with
    | [] => none
    | c :: rest =>
      if c = 'n' then
        match rest with
        | 'u' :: 'l' :: 'l' :: r => some (.null, r)
        | _ => none
      else if c = 't' then
        match rest with
        | 'r' :: 'u' :: 'e' :: r => some (.bool true, r)
        | _ => none
      else if c = 'f' then
        match rest with
        | 'a' :: 'l' :: 's' :: 'e' :: r => some (.bool false, r)
        | _ => none
      else if c = '"' then (parseStrBody rest).map fun (cs, r) => (.str cs, r)
      else if c = '[' then
        match skipWs rest with
        | [] => none
        | c2 :: r2 =>
          if c2 = ']' then some (.arr .nil, r2)
          else (parseElems fuel (c2 :: r2)).map fun (es, r) => (.arr es, r)
      else if c = '\x7b' then
        match skipWs rest with
        | [] => none
        | c2 :: r2 =>
          if c2 = '\x7d' then some (.obj .nil, r2)
          else (parseFields fuel (c2 :: r2)).map fun (kvs, r) =>
            (.obj (buildDict .nil kvs), r)
      else (parseIntTok (c :: rest)).map fun (n, r) => (.num n, r)

/-- Parse one-or-more comma-separated array elements and the closing `]`. -/
def parseElems : Nat → Str → Option (JsonList × Str)
  | 0, _ => none
  | Nat.succ fuel, s =>
    match parseVal fuel s with
    | none => none
    | some (v, r) =>
      match skipWs r with
      | [] => none
      | c :: r2 =>
        if c = ',' then
          (parseElems fuel r2).map fun (es, r3) => (.cons v es, r3)
        else if c = ']' then some (.cons v .nil, r2)
        else none

/-- Parse one-or-more `"key": value` fields and the closing brace. -/
def parseFields : Nat → Str → Option (JsonFields × Str)
  | 0, _ => none
  | Nat.succ fuel, s =>
    match skipWs s with
    | [] => none
    | c0 :: srest =>
      if c0 = '"' then
        match parseStrBody srest with
        | none => none
        | some (k, r) =>
          match skipWs r with
          | [] => none
          | c1 :: r2 =>
            if c1 = ':' then
              match parseVal fuel r2 with
              | none => none
              | some (v, r3) =>
                match skipWs r3 with
                | [] => none
                | c2 :: r4 =>
                  if c2 = ',' then
                    (parseFields fuel r4).map fun (kvs, r5) =>
                      (.cons k v kvs, r5)
                  else if c2 = '\x7d' then some (.cons k v .nil, r4)
                  else none
            else none
      else none
end

/-- `json.loads`: parse a complete document, requiring only trailing
whitespace after the value; `none` models the raised `JSONDecodeError`.
The fuel bound is generous: the round-trip proofs show any dumped
document fits within it. -/
def parse (s : Str) : Option Json :=
  match parseVal (2 * s.length + 2) s with
  | some (v, rest) => if skipWs rest = [] then some v else none
  | none => none

/-! ## Content documents (src/models.py) -/

/-- `Page.get_content` / `ContentBlock.get_content` (src/models.py lines
64-65 and 84-85): an empty (falsy) stored string is treated as the empty
document, anything else goes through `json.loads`; `none` models the
`JSONDecodeError` that `json.loads` raises on malformed input, which the
source does not catch. -/
def getContent (contentJson : Str) : Option Json :=
  if contentJson = [] then some (Json.obj .nil) else parse contentJson

/-- `Page.set_content` / `ContentBlock.set_content` (src/models.py lines
67-68 and 87-88): store `json.dumps` of the document. -/
def setContent (content : Json) : Str := dumpsV content

/-! ## The persistent store and the write endpoints (src/app.py) -/

/-- A row of `pages` (src/models.py lines 51-62). -/
structure PageRec where
  id : Nat
  slug : Str
  title : Str
  contentJson : Str
  updatedAt : Nat
deriving Repr, DecidableEq

/-- A row of `content_blocks` (src/models.py lines 70-82). -/
structure BlockRec where
  id : Nat
  pageId : Nat
  blockType : Str
  position : Int
  contentJson : Str
  sectionId : Option Str
deriving Repr, DecidableEq

/-- A row of `buttons` (src/models.py lines 90-100). -/
structure ButtonRec where
  id : Nat
  contentBlockId : Nat
  iconUrl : Str
  label : Str
  descriptionText : Str
  linkUrl : Str
  linkType : Str
  position : Int
deriving Repr, DecidableEq

/-- The database visible to the request handlers.  `nextId` is the supply
of fresh primary keys. -/
structure World where
  pages : List PageRec
  blocks : List BlockRec
  buttons : List ButtonRec
  nextId : Nat
deriving Repr, DecidableEq

/-- `Page.query.filter_by(slug=...).first()`. -/
def findPage (w : World) (slug : Str) : Option PageRec :=
  w.pages.find? fun p => p.slug == slug

/-- `ContentBlock.query.filter_by(page_id=..., section_id=...).first()`:
the lookup key is the `(page, section_id)` pair only. -/
def findBlock (w : World) (pageId : Nat) (sectionId : Str) : Option BlockRec :=
  w.blocks.find? fun b => b.pageId == pageId && b.sectionId == some sectionId

/-- Replace the page row with the given id (the ORM updating a loaded row
in place). -/
def setPage (w : World) (p : PageRec) : World :=
  { w with pages := w.pages.map fun q => if q.id == p.id then p else q }

/-- The positions of the buttons of one block, in storage order. -/
def blockButtonPositions (w : World) (blockId : Nat) : List Int :=
  (w.buttons.filter fun b => b.contentBlockId == blockId).map ButtonRec.position

/-- `db.session.query(func.max(Button.position)).filter_by(...).scalar() or 0`
(src/app.py line 341): the maximum position among the block's buttons, the
Python `or 0` turning an empty (`None`) result into `0`.  (`or 0` is the
identity on any integer it receives: a zero maximum is replaced by the same
`0`.) -/
def maxButtonPosition (w : World) (blockId : Nat) : Int :=
  match blockButtonPositions w blockId with
  | [] => 0
  | p :: ps => ps.foldl max p

/-- The outcome of an API request. -/
inductive Outcome where
  /-- `@login_required` rejected an unauthenticated caller. -/
  | redirectLogin : Outcome
  /-- An uncaught exception aborted the request; the uncommitted session is
  rolled back. -/
  | serverError : Outcome
  /-- `jsonify({'success': True, ...})`, with the created button id when the
  endpoint reports one. -/
  | ok (buttonId : Option Nat) : Outcome
deriving Repr, DecidableEq

/-- Page lookup with lazy creation as the write endpoints do it
(src/app.py lines 331-335 and 358-361): title from humanizing the whole
slug, content defaulting to `'{}'`.  Returns the row and the world holding
it. -/
def getOrCreatePage (now : Nat) (slug : Str) (w : World) : PageRec × World :=
  match findPage w slug with
  | some p => (p, w)
  | none =>
    let p : PageRec :=
      { id := w.nextId, slug := slug, title := humanizeSlug slug,
        contentJson := chars "{}", updatedAt := now }
    (p, { w with pages := w.pages ++ [p], nextId := w.nextId + 1 })

/-- Block lookup with lazy creation (src/app.py lines 336-340): the lookup
matches on `(page_id, section_id)` only; a new block gets the given
`block_type`, position `0` and content `'{}'`. -/
def getOrCreateBlock (w : World) (pageId : Nat) (sectionId : Str)
    (blockType : Str) : BlockRec × World :=
  match findBlock w pageId sectionId with
  | some b => (b, w)
  | none =>
    let b : BlockRec :=
      { id := w.nextId, pageId := pageId, blockType := blockType,
        position := 0, contentJson := chars "{}", sectionId := some sectionId }
    (b, { w with blocks := w.blocks ++ [b], nextId := w.nextId + 1 })

/-- `update_page_content` (src/app.py lines 355-368).  `@login_required`
turns away unauthenticated callers; no other permission check exists in the
source.  On an uncaught exception (malformed stored document, or a stored
document that is not an object) nothing is committed, so the original world
is returned. -/
def updatePageContent (caller : Option UserRec) (now : Nat) (slug : Str)
    (newHtml : Str) (w : World) : Outcome × World :=
  match caller with
  | none => (.redirectLogin, w)
  | some _ =>
    let (page, wPage) := getOrCreatePage now slug w
    match getContent page.contentJson with
    | none => (.serverError, w)
    | some doc =>
      match doc with
      | .obj kvs =>
        let newDoc := Json.obj (insertKey kvs (chars "html") (.str newHtml))
        let page' := { page with contentJson := setContent newDoc, updatedAt := now }
        (.ok none, setPage wPage page')
      | _ => (.serverError, w)

/-- The form fields of the `create_button` endpoint, with the source's
defaults already applied by the caller. -/
structure ButtonForm where
  pageSlug : Str
  sectionId : Str
  label : Str
  descriptionText : Str
  linkUrl : Str
  linkType : Str
  iconUrl : Str
deriving Repr, DecidableEq

/-- `create_button` (src/app.py lines 325-353).  `@login_required` turns
away unauthenticated callers; no other permission check exists in the
source.  Page and block are lazily created, and the new button is appended
at `max(position) + 1`. -/
def createButton (caller : Option UserRec) (now : Nat) (form : ButtonForm)
    (w : World) : Outcome × World :=
  match caller with
  | none => (.redirectLogin, w)
  | some _ =>
    let (page, w1) := getOrCreatePage now form.pageSlug w
    let (block, w2) := getOrCreateBlock w1 page.id form.sectionId (chars "button_grid")
    let maxPos := maxButtonPosition w2 block.id
    let btn : ButtonRec :=
      { id := w2.nextId, contentBlockId := block.id, iconUrl := form.iconUrl,
        label := form.label, descriptionText := form.descriptionText,
        linkUrl := form.linkUrl, linkType := form.linkType,
        position := maxPos + 1 }
    (.ok (some btn.id), { w2 with buttons := w2.buttons ++ [btn], nextId := w2.nextId + 1 })

/-- The page lookup of the generic page route (src/app.py lines 265-272):
lazy creation with a title humanizing the whole slug. -/
def pageRouteGetOrCreate (now : Nat) (slug : Str) (w : World) : PageRec × World :=
  getOrCreatePage now slug w

/-- The page lookup of the rules route (src/app.py lines 186-192): the page
slug is `rules/` followed by the route segment, while the title humanizes
the segment alone. -/
def rulesDetailGetOrCreate (now : Nat) (seg : Str) (w : World) : PageRec × World :=
  match findPage w (chars "rules/" ++ seg) with
  | some p => (p, w)
  | none =>
    let p : PageRec :=
      { id := w.nextId, slug := chars "rules/" ++ seg, title := humanizeSlug seg,
        contentJson := chars "{}", updatedAt := now }
    (p, { w with pages := w.pages ++ [p], nextId := w.nextId + 1 })

/-- Consistency of the primary-key supply: every stored id is below
`nextId`, page ids are distinct, and button block references point below
the supply. -/
def World.wf (w : World) : Prop :=
  (w.pages.map PageRec.id).Nodup ∧
  (∀ p ∈ w.pages, p.id < w.nextId) ∧
  (∀ b ∈ w.blocks, b.id < w.nextId) ∧
  (∀ b ∈ w.buttons, b.contentBlockId < w.nextId)

instance (w : World) : Decidable w.wf := by
  unfold World.wf
  infer_instance

/-! ## Size measures for the round-trip proofs -/

mutual
/-- Structural size of a document, bounding the parser fuel it needs. -/
def jsize : Json → Nat
  | .null | .bool _ | .num _ | .str _ => 1
  | .arr es => lsize es + 1
  | .obj kvs => fsize kvs + 1

/-- Size of an element list. -/
def lsize : JsonList → Nat
  | .nil => 1
  | .cons e tl => jsize e + lsize tl + 1

/-- Size of a field list. -/
def fsize : JsonFields → Nat
  | .nil => 1
  | .cons _ v tl => jsize v + fsize tl + 1
end

/-- True when the input does not begin with a decimal digit, so a preceding
number token cannot absorb it. -/
def headNonDigit : Str → Bool
  | [] => true
  | c :: _ => !c.isDigit

/-! ## Character-level lemmas -/

/-- A digit character differs from every non-digit character. -/
theorem ne_of_isDigit {c d : Char} (h : c.isDigit = true)
    (hd : d.isDigit = false) : c ≠ d := by
  intro he
  rw [he, hd] at h
  cases h

/-- Skipping whitespace stops at any non-whitespace character. -/
theorem skipWs_cons {c : Char} (cs : Str) (h1 : c ≠ ' ') (h2 : c ≠ '\t')
    (h3 : c ≠ '\n') (h4 : c ≠ '\r') : skipWs (c :: cs) = c :: cs := by
  simp [skipWs, h1, h2, h3, h4]

/-- Hex digits below 16 decode back to their value. -/
theorem hexVal_hexDigit : ∀ d : Nat, d < 16 → hexVal (hexDigit d) = some d := by
  decide

/-- Decimal digit characters are digits. -/
theorem hexDigit_isDigit : ∀ d : Nat, d < 10 → (hexDigit d).isDigit = true := by
  decide

/-- Decimal value recovered from a digit character. -/
theorem hexDigit_toNat : ∀ d : Nat, d < 10 → (hexDigit d).toNat - 48 = d := by
  decide

/-! ## Number round-trip -/

/-- `parseDigits` consumes exactly a run of digit characters, folding their
values, and stops at the first non-digit. -/
theorem parseDigits_append (ds : Str) : ∀ (acc : Nat) (rest : Str),
    (∀ c ∈ ds, c.isDigit = true) → headNonDigit rest = true →
    parseDigits acc (ds ++ rest) =
      (ds.foldl (fun a c => a * 10 + (c.toNat - 48)) acc, rest) := by
  induction ds with
  | nil =>
    intro acc rest _ hrest
    cases rest with
    | nil => rfl
    | cons c cs =>
      have : c.isDigit = false := by
        simpa [headNonDigit] using hrest
      simp [parseDigits, this]
  | cons c cs ih =>
    intro acc rest hds hrest
    have hc : c.isDigit = true := hds c (by simp)
    simp only [List.cons_append, parseDigits, hc, if_true, List.foldl_cons]
    exact ih _ rest (fun d hd => hds d (by simp [hd])) hrest

/-- The fuelled digit printer agrees with `Nat.digits`. -/
theorem natCharsGo_eq (fuel : Nat) : ∀ n : Nat, n < fuel →
    natCharsGo fuel n = ((Nat.digits 10 n).reverse.map hexDigit) := by
  induction fuel with
  | zero => intro n h; omega
  | succ fuel ih =>
    intro n h
    by_cases hn : n = 0
    · subst hn; simp [natCharsGo]
    · have hdiv : n / 10 < fuel := by
        have h1 : n / 10 < n := Nat.div_lt_self (Nat.pos_of_ne_zero hn) (by omega)
        omega
      have hd := Nat.digits_def' (b := 10) (by omega) (Nat.pos_of_ne_zero hn)
      simp [natCharsGo, hn, ih _ hdiv, hd]

/-- Folding base-10 reconstruction over reversed digit characters equals
`Nat.ofDigits`. -/
theorem foldl_digits_eq_ofDigits (l : List Nat) : (∀ d ∈ l, d < 10) →
    ∀ acc : Nat,
    (l.reverse.map hexDigit).foldl (fun a c => a * 10 + (c.toNat - 48)) acc =
      acc * 10 ^ l.length + Nat.ofDigits 10 l := by
  induction l with
  | nil => intro _ acc; simp
  | cons d tl ih =>
    intro hl acc
    have hd : d < 10 := hl d (by simp)
    have ihtl := ih (fun e he => hl e (by simp [he])) acc
    simp only [List.reverse_cons, List.map_append, List.foldl_append, ihtl,
      List.map_cons, List.map_nil, List.foldl_cons, List.foldl_nil,
      hexDigit_toNat d hd, Nat.ofDigits_cons, List.length_cons]
    ring

/-- All characters of a printed natural number are digits. -/
theorem natChars_digits (n : Nat) : ∀ c ∈ natChars n, c.isDigit = true := by
  unfold natChars
  by_cases hn : n = 0
  · simp [hn]
  · simp only [hn, if_false]
    rw [natCharsGo_eq (n + 1) n (by omega)]
    intro c hc
    rw [List.mem_map] at hc
    obtain ⟨d, hd, rfl⟩ := hc
    rw [List.mem_reverse] at hd
    exact hexDigit_isDigit d (Nat.digits_lt_base (by omega) hd)

/-- A printed natural number is a nonempty string. -/
theorem natChars_cons (n : Nat) : ∃ c cs, natChars n = c :: cs := by
  unfold natChars
  by_cases hn : n = 0
  · exact ⟨'0', [], by simp [hn]⟩
  · simp only [hn, if_false]
    rw [natCharsGo_eq (n + 1) n (by omega)]
    have hne : Nat.digits 10 n ≠ [] := Nat.digits_ne_nil_iff_ne_zero.mpr hn
    cases hds : (Nat.digits 10 n).reverse with
    | nil => exact absurd (by simpa using hds) hne
    | cons d ds => exact ⟨hexDigit d, ds.map hexDigit, by simp [hds]⟩

/-- Parsing the digits of a printed natural number recovers it. -/
theorem parseDigits_natChars (n : Nat) (rest : Str)
    (hrest : headNonDigit rest = true) :
    parseDigits 0 (natChars n ++ rest) = (n, rest) := by
  rw [parseDigits_append (natChars n) 0 rest (natChars_digits n) hrest]
  unfold natChars
  by_cases hn : n = 0
  · simp [hn]
  · simp only [hn, if_false]
    rw [natCharsGo_eq (n + 1) n (by omega)]
    rw [foldl_digits_eq_ofDigits _ (fun d hd => Nat.digits_lt_base (by omega) hd) 0]
    simp [Nat.ofDigits_digits]

/-- Parsing a printed integer recovers it, leaving the remainder intact,
provided the remainder does not begin with a digit. -/
theorem parseIntTok_dumpInt (n : Int) (rest : Str)
    (hrest : headNonDigit rest = true) :
    parseIntTok (dumpInt n ++ rest) = some (n, rest) := by
  unfold dumpInt
  by_cases hneg : n < 0
  · simp only [hneg, if_true]
    obtain ⟨c, cs, hnc⟩ := natChars_cons (-n).toNat
    have hc : c.isDigit = true := natChars_digits _ c (by rw [hnc]; simp)
    rw [hnc]
    simp only [List.cons_append, parseIntTok, if_pos rfl]
    rw [← List.cons_append, ← hnc]
    rw [parseDigits_natChars _ rest hrest]
    have : ((-n).toNat : Int) = -n := Int.toNat_of_nonneg (by omega)
    simp [hnc, hc, this]
  · simp only [hneg, if_false]
    obtain ⟨c, cs, hnc⟩ := natChars_cons n.toNat
    have hc : c.isDigit = true := natChars_digits _ c (by rw [hnc]; simp)
    have hcm : c ≠ '-' := ne_of_isDigit hc (by decide)
    rw [hnc]
    simp only [List.cons_append, parseIntTok, hcm, if_false, hc, if_true]
    rw [← List.cons_append, ← hnc]
    rw [parseDigits_natChars _ rest hrest]
    simp [Int.toNat_of_nonneg (by omega : (0 : Int) ≤ n)]

/-- A dumped value begins with a character that is not whitespace, not a
closing bracket and not a separator. -/
theorem dumpsV_cons (d : Json) : ∃ c cs, dumpsV d = c :: cs ∧
    c ≠ ' ' ∧ c ≠ '\t' ∧ c ≠ '\n' ∧ c ≠ '\r' ∧ c ≠ ']' ∧ c ≠ '\x7d' ∧ c ≠ ',' := by
  cases d with
  | null => exact ⟨'n', ['u', 'l', 'l'], rfl, by decide⟩
  | bool b =>
    cases b with
    | true => exact ⟨'t', ['r', 'u', 'e'], rfl, by decide⟩
    | false => exact ⟨'f', ['a', 'l', 's', 'e'], rfl, by decide⟩
  | num n =>
    show ∃ c cs, dumpInt n = c :: cs ∧ _
    unfold dumpInt
    by_cases hneg : n < 0
    · simp only [hneg, if_true]
      exact ⟨'-', _, rfl, by decide⟩
    · simp only [hneg, if_false]
      obtain ⟨c, cs, hnc⟩ := natChars_cons n.toNat
      have hc : c.isDigit = true := natChars_digits _ c (by rw [hnc]; simp)
      refine ⟨c, cs, hnc, ?_, ?_, ?_, ?_, ?_, ?_, ?_⟩ <;>
        exact ne_of_isDigit hc (by decide)
  | str s => exact ⟨'"', _, rfl, by decide⟩
  | arr es => exact ⟨'[', _, rfl, by decide⟩
  | obj kvs => exact ⟨'\x7b', _, rfl, by decide⟩

/-- Whitespace skipping leaves a dumped value untouched. -/
theorem skipWs_dumps (d : Json) (r : Str) :
    skipWs (dumpsV d ++ r) = dumpsV d ++ r := by
  obtain ⟨c, cs, hd, h1, h2, h3, h4, _, _, _⟩ := dumpsV_cons d
  rw [hd]
  exact skipWs_cons _ h1 h2 h3 h4

/-! ## String-literal round-trip -/

/-- Decoding an escaped string body recovers the original characters and
stops exactly at the closing quote. -/
theorem parseStrBody_escape (s : Str) : ∀ rest : Str,
    parseStrBody ((s.map escapeChar).flatten ++ ('"' :: rest)) =
      some (s, rest) := by
  induction s with
  | nil =>
    intro rest
    simp only [List.map_nil, List.flatten_nil, List.nil_append]
    rw [parseStrBody.eq_def]
    simp
  | cons c cs ih =>
    intro rest
    simp only [List.map_cons, List.flatten_cons, List.append_assoc]
    by_cases h1 : c = '"'
    · subst h1
      rw [show escapeChar '"' = ['\\', '"'] from rfl]
      rw [parseStrBody.eq_def]
      simp [ih rest]
    · by_cases h2 : c = '\\'
      · subst h2
        rw [show escapeChar '\\' = ['\\', '\\'] from rfl]
        rw [parseStrBody.eq_def]
        simp [ih rest]
      · by_cases h3 : c = '\n'
        · subst h3
          rw [show escapeChar '\n' = ['\\', 'n'] from rfl]
          rw [parseStrBody.eq_def]
          simp [ih rest]
        · by_cases h4 : c = '\t'
          · subst h4
            rw [show escapeChar '\t' = ['\\', 't'] from rfl]
            rw [parseStrBody.eq_def]
            simp [ih rest]
          · by_cases h5 : c = '\r'
            · subst h5
              rw [show escapeChar '\r' = ['\\', 'r'] from rfl]
              rw [parseStrBody.eq_def]
              simp [ih rest]
            · by_cases h6 : c.toNat = 8
              · have hc8 : c = Char.ofNat 8 := by rw [← h6, Char.ofNat_toNat]
                subst hc8
                rw [show escapeChar (Char.ofNat 8) = ['\\', 'b'] from rfl]
                rw [parseStrBody.eq_def]
                simp [ih rest]
              · by_cases h7 : c.toNat = 12
                · have hc12 : c = Char.ofNat 12 := by rw [← h7, Char.ofNat_toNat]
                  subst hc12
                  rw [show escapeChar (Char.ofNat 12) = ['\\', 'f'] from rfl]
                  rw [parseStrBody.eq_def]
                  simp [ih rest]
                · by_cases h8 : c.toNat < 32
                  · have hdiv : c.toNat / 16 < 16 := by omega
                    have hmod : c.toNat % 16 < 16 := by omega
                    rw [show escapeChar c = ['\\', 'u', '0', '0',
                        hexDigit (c.toNat / 16), hexDigit (c.toNat % 16)] from by
                      simp [escapeChar, h1, h2, h3, h4, h5, h6, h7, h8]]
                    rw [parseStrBody.eq_def]
                    simp [ih rest, hexVal_hexDigit _ hdiv, hexVal_hexDigit _ hmod,
                      show hexVal '0' = some 0 from rfl, Nat.div_add_mod,
                      Char.ofNat_toNat]
                  · rw [show escapeChar c = [c] from by
                      simp [escapeChar, h1, h2, h3, h4, h5, h6, h7, h8]]
                    rw [parseStrBody.eq_def]
                    simp [ih rest, h1, h2, h8]

/-! ## Dict reconstruction -/

/-- Plain concatenation of field lists (proof infrastructure). -/
def appendF : JsonFields → JsonFields → JsonFields
  | .nil, ys => ys
  | .cons k v tl, ys => .cons k v (appendF tl ys)

/-- No key of the second list occurs in the first (proof infrastructure). -/
def disjointF (acc : JsonFields) : JsonFields → Bool
  | .nil => true
  | .cons k _ tl => !keyMem k acc && disjointF acc tl

theorem appendF_nil : ∀ xs : JsonFields, appendF xs .nil = xs
  | .nil => rfl
  | .cons k v tl => by simp [appendF, appendF_nil tl]

theorem appendF_assoc : ∀ xs : JsonFields, ∀ ys zs : JsonFields,
    appendF (appendF xs ys) zs = appendF xs (appendF ys zs)
  | .nil, _, _ => rfl
  | .cons k v tl, ys, zs => by simp [appendF, appendF_assoc tl ys zs]

/-- Inserting a fresh key appends it at the end. -/
theorem insertKey_of_not_mem : ∀ kvs : JsonFields, ∀ (k : Str) (v : Json),
    keyMem k kvs = false →
    insertKey kvs k v = appendF kvs (.cons k v .nil)
  | .nil, _, _, _ => rfl
  | .cons k' v' tl, k, v, h => by
    rw [keyMem] at h
    by_cases hk : k' = k
    · simp [hk] at h
    · simp only [hk, if_false] at h
      simp [insertKey, hk, appendF, insertKey_of_not_mem tl k v h]

theorem keyMem_appendF (a : Str) : ∀ xs ys : JsonFields,
    keyMem a (appendF xs ys) = (keyMem a xs || keyMem a ys)
  | .nil, ys => by simp [appendF, keyMem]
  | .cons k v tl, ys => by
    by_cases hk : k = a
    · simp [appendF, keyMem, hk]
    · simp [appendF, keyMem, hk, keyMem_appendF a tl ys]

/-- Appending a key absent from a disjoint field list keeps disjointness. -/
theorem disjointF_append_single : ∀ tl : JsonFields, ∀ (acc : JsonFields)
    (k : Str) (v : Json), keyMem k tl = false → disjointF acc tl = true →
    disjointF (appendF acc (.cons k v .nil)) tl = true
  | .nil, _, _, _, _, _ => rfl
  | .cons a b tl', acc, k, v, hmem, hdis => by
    rw [keyMem] at hmem
    by_cases hak : a = k
    · simp [hak] at hmem
    · simp only [hak, if_false] at hmem
      rw [disjointF] at hdis
      simp only [Bool.and_eq_true, Bool.not_eq_true'] at hdis
      rw [disjointF]
      simp only [Bool.and_eq_true, Bool.not_eq_true']
      refine ⟨?_, disjointF_append_single tl' acc k v hmem hdis.2⟩
      rw [keyMem_appendF, hdis.1]
      have hka : ¬k = a := fun he => hak he.symm
      simp [keyMem, hka]

/-- Building a dict from pairwise-distinct, disjoint fields concatenates. -/
theorem buildDict_append : ∀ kvs : JsonFields, ∀ acc : JsonFields,
    nodupKeys kvs = true → disjointF acc kvs = true →
    buildDict acc kvs = appendF acc kvs
  | .nil, acc, _, _ => by simp [buildDict, appendF_nil]
  | .cons k v tl, acc, hnd, hdis => by
    rw [nodupKeys] at hnd
    simp only [Bool.and_eq_true, Bool.not_eq_true'] at hnd
    rw [disjointF] at hdis
    simp only [Bool.and_eq_true, Bool.not_eq_true'] at hdis
    rw [buildDict, insertKey_of_not_mem _ _ _ hdis.1]
    rw [buildDict_append tl _ hnd.2 (disjointF_append_single _ _ _ _ hnd.1 hdis.2)]
    rw [appendF_assoc]
    rfl

theorem disjointF_nil : ∀ kvs : JsonFields, disjointF .nil kvs = true
  | .nil => rfl
  | .cons k v tl => by simp [disjointF, keyMem, disjointF_nil tl]

/-- `json.loads` rebuilds an object with pairwise-distinct keys verbatim. -/
theorem buildDict_nodup (kvs : JsonFields) (h : nodupKeys kvs = true) :
    buildDict .nil kvs = kvs := by
  rw [buildDict_append kvs .nil h (disjointF_nil kvs)]
  rfl

/-! ## Whitespace and positivity helpers -/

theorem jsize_pos (d : Json) : 1 ≤ jsize d := by
  cases d <;> simp [jsize]

theorem lsize_pos (es : JsonList) : 1 ≤ lsize es := by
  cases es <;> simp [lsize]

theorem fsize_pos (kvs : JsonFields) : 1 ≤ fsize kvs := by
  cases kvs <;> simp [fsize]

theorem skipWs_space (s : Str) : skipWs (' ' :: s) = skipWs s := by
  simp [skipWs]

theorem parseVal_cons_ws (fuel : Nat) (s : Str) :
    parseVal fuel (' ' :: s) = parseVal fuel s := by
  cases fuel with
  | zero => rfl
  | succ f =>
    rw [parseVal.eq_def, parseVal.eq_def]
    simp only [skipWs_space]

theorem parseElems_cons_ws (fuel : Nat) (s : Str) :
    parseElems fuel (' ' :: s) = parseElems fuel s := by
  cases fuel with
  | zero => rfl
  | succ f =>
    rw [parseElems.eq_def, parseElems.eq_def]
    simp only [parseVal_cons_ws]

theorem parseFields_cons_ws (fuel : Nat) (s : Str) :
    parseFields fuel (' ' :: s) = parseFields fuel s := by
  cases fuel with
  | zero => rfl
  | succ f =>
    rw [parseFields.eq_def, parseFields.eq_def]
    simp only [skipWs_space]

/-! ## The `json.loads`/`json.dumps` round trip -/

/-- A dumped integer begins with a minus sign or a digit, hence falls
through to the number branch of the value parser. -/
theorem dumpInt_cons (n : Int) : ∃ c cs, dumpInt n = c :: cs ∧
    c ≠ 'n' ∧ c ≠ 't' ∧ c ≠ 'f' ∧ c ≠ '"' ∧ c ≠ '[' ∧ c ≠ '\x7b' ∧
    c ≠ ' ' ∧ c ≠ '\t' ∧ c ≠ '\n' ∧ c ≠ '\r' := by
  unfold dumpInt
  by_cases hneg : n < 0
  · simp only [hneg, if_true]
    exact ⟨'-', _, rfl, by decide, by decide, by decide, by decide, by decide,
      by decide, by decide, by decide, by decide, by decide⟩
  · simp only [hneg, if_false]
    obtain ⟨c, cs, hnc⟩ := natChars_cons n.toNat
    have hc : c.isDigit = true := natChars_digits _ c (by rw [hnc]; simp)
    refine ⟨c, cs, hnc, ?_, ?_, ?_, ?_, ?_, ?_, ?_, ?_, ?_, ?_⟩ <;>
      exact ne_of_isDigit hc (by decide)

/-- A dumped non-empty element list begins with the head of its first
element's dump. -/
theorem dumpsL_cons (e : Json) (tl : JsonList) : ∃ c cs,
    dumpsL (.cons e tl) = c :: cs ∧
    c ≠ ' ' ∧ c ≠ '\t' ∧ c ≠ '\n' ∧ c ≠ '\r' ∧ c ≠ ']' ∧ c ≠ '\x7d' ∧
    c ≠ ',' := by
  obtain ⟨c, cs, hd, g1, g2, g3, g4, g5, g6, g7⟩ := dumpsV_cons e
  cases tl with
  | nil =>
    exact ⟨c, cs, by rw [show dumpsL (.cons e .nil) = dumpsV e from rfl, hd],
      g1, g2, g3, g4, g5, g6, g7⟩
  | cons e' tl' =>
    refine ⟨c, cs ++ (',' :: ' ' :: dumpsL (.cons e' tl')), ?_,
      g1, g2, g3, g4, g5, g6, g7⟩
    rw [show dumpsL (.cons e (.cons e' tl')) =
      dumpsV e ++ (',' :: ' ' :: dumpsL (.cons e' tl')) from rfl, hd]
    rfl

/-- One-step unfolding of the value parser at positive fuel. -/
theorem parseVal_succ (f : Nat) (s : Str) : parseVal (f + 1) s =
    match skipWs s with
    | [] => none
    | c :: rest =>
      if c = 'n' then
        match rest with
        | 'u' :: 'l' :: 'l' :: r => some (.null, r)
        | _ => none
      else if c = 't' then
        match rest with
        | 'r' :: 'u' :: 'e' :: r => some (.bool true, r)
        | _ => none
      else if c = 'f' then
        match rest with
        | 'a' :: 'l' :: 's' :: 'e' :: r => some (.bool false, r)
        | _ => none
      else if c = '"' then (parseStrBody rest).map fun (cs, r) => (.str cs, r)
      else if c = '[' then
        match skipWs rest with
        | [] => none
        | c2 :: r2 =>
          if c2 = ']' then some (.arr .nil, r2)
          else (parseElems f (c2 :: r2)).map fun (es, r) => (.arr es, r)
      else if c = '\x7b' then
        match skipWs rest with
        | [] => none
        | c2 :: r2 =>
          if c2 = '\x7d' then some (.obj .nil, r2)
          else (parseFields f (c2 :: r2)).map fun (kvs, r) =>
            (.obj (buildDict .nil kvs), r)
      else (parseIntTok (c :: rest)).map fun (n, r) => (.num n, r) := rfl

/-- One-step unfolding of the element parser at positive fuel. -/
theorem parseElems_succ (f : Nat) (s : Str) : parseElems (f + 1) s =
    match parseVal f s with
    | none => none
    | some (v, r) =>
      match skipWs r with
      | [] => none
      | c :: r2 =>
        if c = ',' then
          (parseElems f r2).map fun (es, r3) => (.cons v es, r3)
        else if c = ']' then some (.cons v .nil, r2)
        else none := rfl

/-- One-step unfolding of the field parser at positive fuel. -/
theorem parseFields_succ (f : Nat) (s : Str) : parseFields (f + 1) s =
    match skipWs s with
    | [] => none
    | c0 :: srest =>
      if c0 = '"' then
        match parseStrBody srest with
        | none => none
        | some (k, r) =>
          match skipWs r with
          | [] => none
          | c1 :: r2 =>
            if c1 = ':' then
              match parseVal f r2 with
              | none => none
              | some (v, r3) =>
                match skipWs r3 with
                | [] => none
                | c2 :: r4 =>
                  if c2 = ',' then
                    (parseFields f r4).map fun (kvs, r5) =>
                      (.cons k v kvs, r5)
                  else if c2 = '\x7d' then some (.cons k v .nil, r4)
                  else none
            else none
      else none := rfl

mutual
/-- A dumped value parses back to itself, leaving the remainder intact,
whenever the fuel covers its size, its objects have distinct keys, and the
remainder does not begin with a digit. -/
theorem parseVal_dumps : ∀ (d : Json) (fuel : Nat) (rest : Str),
    jsize d ≤ fuel → wfJ d = true → headNonDigit rest = true →
    parseVal fuel (dumpsV d ++ rest) = some (d, rest)
  | d, 0, _, hsize, _, _ => absurd hsize (by have := jsize_pos d; omega)
  | .null, Nat.succ f, rest, _, _, _ => rfl
  | .bool true, Nat.succ f, rest, _, _, _ => rfl
  | .bool false, Nat.succ f, rest, _, _, _ => rfl
  | .num n, Nat.succ f, rest, _, _, hrest => by
    rw [parseVal_succ]
    obtain ⟨c, cs, hnc, g1, g2, g3, g4, g5, g6, g7, g8, g9, g10⟩ :=
      dumpInt_cons n
    rw [show dumpsV (.num n) = dumpInt n from rfl, hnc]
    simp only [List.cons_append]
    rw [skipWs_cons _ g7 g8 g9 g10]
    simp only [g1, g2, g3, g4, g5, g6, if_false]
    rw [← List.cons_append, ← hnc, parseIntTok_dumpInt n rest hrest]
    rfl
  | .str s, Nat.succ f, rest, _, _, _ => by
    rw [parseVal_succ]
    rw [show dumpsV (.str s) = '"' :: ((s.map escapeChar).flatten ++ ['"'])
      from rfl]
    simp only [List.cons_append, List.append_assoc, List.nil_append]
    rw [skipWs_cons _ (by decide) (by decide) (by decide) (by decide)]
    simp [parseStrBody_escape s rest]
  | .arr .nil, Nat.succ f, rest, _, _, _ => rfl
  | .arr (.cons e tl), Nat.succ f, rest, hsize, hwf, _ => by
    rw [parseVal_succ]
    rw [show dumpsV (.arr (.cons e tl)) =
      '[' :: (dumpsL (.cons e tl) ++ [']']) from rfl]
    simp only [List.cons_append, List.append_assoc, List.nil_append]
    rw [skipWs_cons _ (by decide) (by decide) (by decide) (by decide)]
    simp only [show ('[' : Char) ≠ 'n' from by decide,
      show ('[' : Char) ≠ 't' from by decide,
      show ('[' : Char) ≠ 'f' from by decide,
      show ('[' : Char) ≠ '"' from by decide,
      eq_self_iff_true, if_true, if_false]
    obtain ⟨c, cs, hdc, g1, g2, g3, g4, g5, g6, g7⟩ := dumpsL_cons e tl
    rw [hdc]
    simp only [List.cons_append]
    rw [skipWs_cons _ g1 g2 g3 g4]
    simp only [g5, if_false, if_true]
    rw [← List.cons_append, ← hdc]
    have hsz : lsize (.cons e tl) ≤ f := by
      have h := hsize; simp [jsize] at h; omega
    have hwl : wfL (.cons e tl) = true := by
      have h := hwf; rw [wfJ] at h; exact h
    rw [parseElems_dumps e tl f rest hsz hwl]
    rfl
  | .obj .nil, Nat.succ f, rest, _, _, _ => rfl
  | .obj (.cons k v tl), Nat.succ f, rest, hsize, hwf, _ => by
    rw [parseVal_succ]
    rw [show dumpsV (.obj (.cons k v tl)) =
      '\x7b' :: (dumpsF (.cons k v tl) ++ ['\x7d']) from rfl]
    simp only [List.cons_append, List.append_assoc, List.nil_append]
    rw [skipWs_cons _ (by decide) (by decide) (by decide) (by decide)]
    simp only [show ('\x7b' : Char) ≠ 'n' from by decide,
      show ('\x7b' : Char) ≠ 't' from by decide,
      show ('\x7b' : Char) ≠ 'f' from by decide,
      show ('\x7b' : Char) ≠ '"' from by decide,
      show ('\x7b' : Char) ≠ '[' from by decide,
      eq_self_iff_true, if_true, if_false]
    have hnd : nodupKeys (JsonFields.cons k v tl) = true := by
      have h := hwf; rw [wfJ] at h; simp at h; exact h.1
    have hwff : wfF (JsonFields.cons k v tl) = true := by
      have h := hwf; rw [wfJ] at h; simp at h; exact h.2
    have hdf : ∃ cs, dumpsF (.cons k v tl) = '"' :: cs := by
      cases tl <;> exact ⟨_, rfl⟩
    obtain ⟨cs, hdc⟩ := hdf
    rw [hdc]
    simp only [List.cons_append]
    rw [skipWs_cons _ (by decide) (by decide) (by decide) (by decide)]
    simp only [show ('"' : Char) ≠ '\x7d' from by decide, if_false]
    rw [← List.cons_append, ← hdc]
    have hsz : fsize (.cons k v tl) ≤ f := by
      have h := hsize; simp [jsize] at h; omega
    rw [parseFields_dumps k v tl f rest hsz hwff]
    simp [buildDict_nodup _ hnd]
termination_by d _ _ => jsize d
decreasing_by
  all_goals first
    | omega
    | (simp [jsize, lsize, fsize]; try omega)

/-- A dumped non-empty element list followed by `]` parses back to itself. -/
theorem parseElems_dumps : ∀ (e : Json) (tl : JsonList) (fuel : Nat)
    (rest : Str), lsize (.cons e tl) ≤ fuel → wfL (.cons e tl) = true →
    parseElems fuel (dumpsL (.cons e tl) ++ (']' :: rest)) =
      some (.cons e tl, rest)
  | e, tl, 0, _, hsize, _ =>
    absurd hsize (by have := lsize_pos (.cons e tl) ; omega)
  | e, .nil, Nat.succ f, rest, hsize, hwf => by
    rw [parseElems_succ]
    rw [show dumpsL (.cons e .nil) = dumpsV e from rfl]
    have hwe : wfJ e = true := by
      have h := hwf; rw [wfL] at h; simp at h; exact h.1
    have hsz : jsize e ≤ f := by
      have h := hsize; simp [lsize] at h; omega
    have hh : headNonDigit (']' :: rest) = true := rfl
    rw [parseVal_dumps e f (']' :: rest) hsz hwe hh]
    simp only []
    rw [skipWs_cons _ (by decide) (by decide) (by decide) (by decide)]
    simp
  | e, .cons e2 tl2, Nat.succ f, rest, hsize, hwf => by
    rw [parseElems_succ]
    rw [show dumpsL (.cons e (.cons e2 tl2)) =
      dumpsV e ++ (',' :: ' ' :: dumpsL (.cons e2 tl2)) from rfl]
    simp only [List.append_assoc, List.cons_append]
    have hwe : wfJ e = true := by
      have h := hwf; rw [wfL] at h; simp at h; exact h.1
    have hwtl : wfL (.cons e2 tl2) = true := by
      have h := hwf; rw [wfL] at h; simp at h; exact h.2
    have hsz : jsize e ≤ f := by
      have h := hsize
      simp [lsize] at h
      have h1 := jsize_pos e2
      have h2 := lsize_pos tl2
      omega
    have hh : headNonDigit (',' :: ' ' ::
        (dumpsL (.cons e2 tl2) ++ (']' :: rest))) = true := rfl
    rw [parseVal_dumps e f _ hsz hwe hh]
    simp only []
    rw [skipWs_cons _ (by decide) (by decide) (by decide) (by decide)]
    simp only [eq_self_iff_true, if_true]
    rw [parseElems_cons_ws]
    have hsz2 : lsize (.cons e2 tl2) ≤ f := by
      have h := hsize
      simp [lsize] at h ⊢
      have h1 := jsize_pos e
      omega
    rw [parseElems_dumps e2 tl2 f rest hsz2 hwtl]
    rfl
termination_by e tl _ => lsize (.cons e tl)
decreasing_by
  all_goals first
    | omega
    | (simp [jsize, lsize, fsize]; try omega)

/-- A dumped non-empty field list followed by the closing brace parses back
to itself. -/
theorem parseFields_dumps : ∀ (k : Str) (v : Json) (tl : JsonFields)
    (fuel : Nat) (rest : Str), fsize (.cons k v tl) ≤ fuel →
    wfF (.cons k v tl) = true →
    parseFields fuel (dumpsF (.cons k v tl) ++ ('\x7d' :: rest)) =
      some (.cons k v tl, rest)
  | k, v, tl, 0, _, hsize, _ =>
    absurd hsize (by have := fsize_pos (.cons k v tl); omega)
  | k, v, .nil, Nat.succ f, rest, hsize, hwf => by
    rw [parseFields_succ]
    rw [show dumpsF (.cons k v .nil) = dumpStr k ++ (':' :: ' ' :: dumpsV v)
      from rfl]
    rw [show dumpStr k = '"' :: ((k.map escapeChar).flatten ++ ['"']) from rfl]
    simp only [List.cons_append, List.append_assoc, List.nil_append]
    rw [skipWs_cons _ (by decide) (by decide) (by decide) (by decide)]
    simp only [eq_self_iff_true, if_true]
    rw [parseStrBody_escape k]
    simp only []
    rw [skipWs_cons _ (by decide) (by decide) (by decide) (by decide)]
    simp only [eq_self_iff_true, if_true]
    rw [parseVal_cons_ws]
    have hwv : wfJ v = true := by
      have h := hwf; rw [wfF] at h; simp at h; exact h.1
    have hsz : jsize v ≤ f := by
      have h := hsize; simp [fsize] at h; omega
    have hh : headNonDigit ('\x7d' :: rest) = true := rfl
    rw [parseVal_dumps v f _ hsz hwv hh]
    simp only []
    rw [skipWs_cons _ (by decide) (by decide) (by decide) (by decide)]
    simp
  | k, v, .cons k2 v2 tl2, Nat.succ f, rest, hsize, hwf => by
    rw [parseFields_succ]
    rw [show dumpsF (.cons k v (.cons k2 v2 tl2)) =
      dumpStr k ++ (':' :: ' ' :: dumpsV v) ++
        (',' :: ' ' :: dumpsF (.cons k2 v2 tl2)) from rfl]
    rw [show dumpStr k = '"' :: ((k.map escapeChar).flatten ++ ['"']) from rfl]
    simp only [List.cons_append, List.append_assoc, List.nil_append]
    rw [skipWs_cons _ (by decide) (by decide) (by decide) (by decide)]
    simp only [eq_self_iff_true, if_true]
    rw [parseStrBody_escape k]
    simp only []
    rw [skipWs_cons _ (by decide) (by decide) (by decide) (by decide)]
    simp only [eq_self_iff_true, if_true]
    rw [parseVal_cons_ws]
    have hwv : wfJ v = true := by
      have h := hwf; rw [wfF] at h; simp at h; exact h.1
    have hwtl : wfF (.cons k2 v2 tl2) = true := by
      have h := hwf; rw [wfF] at h; simp at h; exact h.2
    have hsz : jsize v ≤ f := by
      have h := hsize
      simp [fsize] at h
      have h1 := jsize_pos v2
      have h2 := fsize_pos tl2
      omega
    have hh : headNonDigit (',' :: ' ' ::
        (dumpsF (.cons k2 v2 tl2) ++ ('\x7d' :: rest))) = true := rfl
    rw [parseVal_dumps v f _ hsz hwv hh]
    simp only []
    rw [skipWs_cons _ (by decide) (by decide) (by decide) (by decide)]
    simp only [eq_self_iff_true, if_true]
    rw [parseFields_cons_ws]
    have hsz2 : fsize (.cons k2 v2 tl2) ≤ f := by
      have h := hsize
      simp [fsize] at h ⊢
      have h1 := jsize_pos v
      omega
    rw [parseFields_dumps k2 v2 tl2 f rest hsz2 hwtl]
    rfl
termination_by k v tl _ => fsize (.cons k v tl)
decreasing_by
  all_goals first
    | omega
    | (simp [jsize, lsize, fsize]; try omega)
end

mutual
/-- The size of a document is covered by twice its printed length. -/
theorem jsize_le_dumps : ∀ d : Json, jsize d + 1 ≤ 2 * (dumpsV d).length
  | .null => by decide
  | .bool true => by decide
  | .bool false => by decide
  | .num n => by
    obtain ⟨c, cs, hnc, _, _, _, _, _, _, _, _, _, _⟩ := dumpInt_cons n
    rw [show dumpsV (.num n) = dumpInt n from rfl, hnc]
    rw [show jsize (.num n) = 1 from rfl]
    simp only [List.length_cons]
    omega
  | .str s => by
    rw [show dumpsV (.str s) = '"' :: ((s.map escapeChar).flatten ++ ['"'])
      from rfl]
    rw [show jsize (.str s) = 1 from rfl]
    simp only [List.length_cons]
    omega
  | .arr es => by
    have h := lsize_le_dumps es
    rw [show dumpsV (.arr es) = '[' :: (dumpsL es ++ [']']) from rfl]
    rw [show jsize (.arr es) = lsize es + 1 from rfl]
    simp only [List.length_cons, List.length_append]
    omega
  | .obj kvs => by
    have h := fsize_le_dumps kvs
    rw [show dumpsV (.obj kvs) = '\x7b' :: (dumpsF kvs ++ ['\x7d']) from rfl]
    rw [show jsize (.obj kvs) = fsize kvs + 1 from rfl]
    simp only [List.length_cons, List.length_append]
    omega
termination_by d => jsize d
decreasing_by
  all_goals first
    | omega
    | (simp [jsize, lsize, fsize]; try omega)

/-- The size of an element list is covered by twice its printed length
plus one. -/
theorem lsize_le_dumps : ∀ es : JsonList, lsize es ≤ 2 * (dumpsL es).length + 1
  | .nil => by decide
  | .cons e .nil => by
    have h := jsize_le_dumps e
    rw [show dumpsL (.cons e .nil) = dumpsV e from rfl]
    rw [show lsize (.cons e .nil) = jsize e + 2 from rfl]
    omega
  | .cons e (.cons e2 tl) => by
    have h1 := jsize_le_dumps e
    have h2 := lsize_le_dumps (.cons e2 tl)
    rw [show dumpsL (.cons e (.cons e2 tl)) =
      dumpsV e ++ (',' :: ' ' :: dumpsL (.cons e2 tl)) from rfl]
    rw [show lsize (.cons e (.cons e2 tl)) =
      jsize e + lsize (.cons e2 tl) + 1 from rfl]
    simp only [List.length_append, List.length_cons]
    omega
termination_by es => lsize es
decreasing_by
  all_goals first
    | omega
    | (simp [jsize, lsize, fsize]; try omega)

/-- The size of a field list is covered by twice its printed length plus
one. -/
theorem fsize_le_dumps : ∀ kvs : JsonFields,
    fsize kvs ≤ 2 * (dumpsF kvs).length + 1
  | .nil => by decide
  | .cons k v .nil => by
    have h := jsize_le_dumps v
    rw [show dumpsF (.cons k v .nil) = dumpStr k ++ (':' :: ' ' :: dumpsV v)
      from rfl]
    rw [show fsize (.cons k v .nil) = jsize v + 2 from rfl]
    simp only [List.length_append, List.length_cons]
    omega
  | .cons k v (.cons k2 v2 tl) => by
    have h1 := jsize_le_dumps v
    have h2 := fsize_le_dumps (.cons k2 v2 tl)
    rw [show dumpsF (.cons k v (.cons k2 v2 tl)) =
      dumpStr k ++ (':' :: ' ' :: dumpsV v) ++
        (',' :: ' ' :: dumpsF (.cons k2 v2 tl)) from rfl]
    rw [show fsize (.cons k v (.cons k2 v2 tl)) =
      jsize v + fsize (.cons k2 v2 tl) + 1 from rfl]
    simp only [List.length_append, List.length_cons]
    omega
termination_by kvs => fsize kvs
decreasing_by
  all_goals first
    | omega
    | (simp [jsize, lsize, fsize]; try omega)
end

/-- A dumped document is never the empty string. -/
theorem dumpsV_ne_nil (d : Json) : dumpsV d ≠ [] := by
  obtain ⟨c, cs, h, _⟩ := dumpsV_cons d
  rw [h]
  simp

/-- `json.loads` inverts `json.dumps` on well-formed documents. -/
theorem parse_dumps (d : Json) (hwf : wfJ d = true) :
    parse (dumpsV d) = some d := by
  unfold parse
  have hfuel : jsize d ≤ 2 * (dumpsV d).length + 2 := by
    have := jsize_le_dumps d; omega
  have h := parseVal_dumps d (2 * (dumpsV d).length + 2) [] hfuel hwf rfl
  rw [List.append_nil] at h
  rw [h]
  rfl

/-- `get_content` inverts `set_content` on well-formed documents. -/
theorem getContent_setContent (d : Json) (hwf : wfJ d = true) :
    getContent (setContent d) = some d := by
  unfold getContent setContent
  rw [if_neg (dumpsV_ne_nil d)]
  exact parse_dumps d hwf

/-! ## Dict update lemmas -/

/-- Assignment stores the value under the key. -/
theorem getKey_insertKey_same : ∀ (kvs : JsonFields) (k : Str) (v : Json),
    getKey (insertKey kvs k v) k = some v
  | .nil, k, v => by simp [insertKey, getKey]
  | .cons k2 v2 tl, k, v => by
    by_cases h : k2 = k
    · simp [insertKey, h, getKey]
    · simp [insertKey, h, getKey, getKey_insertKey_same tl k v]

/-- Assignment leaves every other key untouched. -/
theorem getKey_insertKey_ne : ∀ (kvs : JsonFields) (k a : Str) (v : Json),
    a ≠ k → getKey (insertKey kvs k v) a = getKey kvs a
  | .nil, k, a, v, hne => by
    have hka : ¬k = a := fun he => hne he.symm
    simp [insertKey, getKey, hka]
  | .cons k2 v2 tl, k, a, v, hne => by
    have hka : ¬k = a := fun he => hne he.symm
    by_cases h : k2 = k
    · have h2a : ¬k2 = a := fun he => hka (h.symm.trans he)
      rw [insertKey, if_pos h, getKey, getKey, if_neg h2a, if_neg h2a]
    · rw [insertKey, if_neg h, getKey, getKey]
      by_cases h2 : k2 = a
      · rw [if_pos h2, if_pos h2]
      · rw [if_neg h2, if_neg h2]
        exact getKey_insertKey_ne tl k a v hne

/-- The keys after an assignment are the old keys plus possibly the new
one. -/
theorem keyMem_insertKey : ∀ (kvs : JsonFields) (k a : Str) (v : Json),
    keyMem a (insertKey kvs k v) =
      (keyMem a kvs || (if k = a then true else false))
  | .nil, k, a, v => by simp [insertKey, keyMem]
  | .cons k2 v2 tl, k, a, v => by
    by_cases h : k2 = k
    · rw [insertKey, if_pos h]
      by_cases h2 : k2 = a
      · simp [keyMem, h2]
      · have hka : ¬k = a := fun he => h2 (h.trans he)
        simp [keyMem, h2, hka]
    · rw [insertKey, if_neg h]
      by_cases h2 : k2 = a
      · simp [keyMem, h2]
      · simp [keyMem, h2, keyMem_insertKey tl k a v]

/-- Assignment preserves key distinctness. -/
theorem nodupKeys_insertKey : ∀ (kvs : JsonFields) (k : Str) (v : Json),
    nodupKeys kvs = true → nodupKeys (insertKey kvs k v) = true
  | .nil, k, v, _ => by simp [insertKey, nodupKeys, keyMem]
  | .cons k2 v2 tl, k, v, hnd => by
    rw [nodupKeys] at hnd
    simp only [Bool.and_eq_true, Bool.not_eq_true'] at hnd
    by_cases h : k2 = k
    · rw [insertKey, if_pos h, nodupKeys]
      simp [hnd.1, hnd.2]
    · rw [insertKey, if_neg h, nodupKeys]
      rw [keyMem_insertKey tl k k2 v]
      have hk2 : ¬k = k2 := fun he => h he.symm
      simp [hk2, hnd.1, nodupKeys_insertKey tl k v hnd.2]

/-- Assignment of a well-formed value preserves field well-formedness. -/
theorem wfF_insertKey : ∀ (kvs : JsonFields) (k : Str) (v : Json),
    wfJ v = true → wfF kvs = true → wfF (insertKey kvs k v) = true
  | .nil, k, v, hv, _ => by simp [insertKey, wfF, hv]
  | .cons k2 v2 tl, k, v, hv, hw => by
    rw [wfF] at hw
    simp only [Bool.and_eq_true] at hw
    by_cases h : k2 = k
    · simp [insertKey, h, wfF, hv, hw.2]
    · simp [insertKey, h, wfF, hw.1, wfF_insertKey tl k v hv hw.2]

/-! ## Store lemmas -/

/-- Replacing the found page row by id, when page ids are distinct, makes
the lookup return the replacement. -/
theorem find?_replace_by_id (slug : Str) :
    ∀ (l : List PageRec) (page p2 : PageRec),
    (l.map PageRec.id).Nodup →
    l.find? (fun p => p.slug == slug) = some page →
    p2.id = page.id → p2.slug = page.slug →
    (l.map fun q => if q.id == p2.id then p2 else q).find?
      (fun p => p.slug == slug) = some p2 := by
  intro l
  induction l with
  | nil => intro page p2 _ hfp _ _; simp [List.find?] at hfp
  | cons q rest ih =>
    intro page p2 hnd hfp hid hslug
    rw [List.map_cons, List.nodup_cons] at hnd
    by_cases hq : (q.slug == slug) = true
    · rw [List.find?_cons_of_pos (p := fun x : PageRec => x.slug == slug) _ hq] at hfp
      have hqp : q = page := by injection hfp
      subst hqp
      have hbe : (q.id == p2.id) = true := by
        rw [hid]
        exact beq_self_eq_true _
      rw [List.map_cons, if_pos hbe]
      apply List.find?_cons_of_pos
      rw [hslug]
      exact hq
    · rw [List.find?_cons_of_neg (p := fun x : PageRec => x.slug == slug) _
        (by simpa using hq)] at hfp
      have hmem : page ∈ rest := List.mem_of_find?_eq_some hfp
      have hqid : q.id ≠ page.id := by
        intro he
        exact hnd.1 (he ▸ List.mem_map_of_mem PageRec.id hmem)
      have hbe : (q.id == p2.id) = false := by
        rw [hid]
        exact beq_eq_false_iff_ne.mpr hqid
      rw [List.map_cons, if_neg (by rw [hbe]; simp)]
      rw [List.find?_cons_of_neg (p := fun x : PageRec => x.slug == slug) _
        (by simpa using hq)]
      exact ih page p2 hnd.2 hfp hid hslug

/-- A failed lookup over a prefix defers to the suffix. -/
theorem find?_append_none {α : Type} (p : α → Bool) :
    ∀ (l1 l2 : List α), l1.find? p = none →
    (l1 ++ l2).find? p = l2.find? p := by
  intro l1
  induction l1 with
  | nil => intro l2 _; rfl
  | cons a rest ih =>
    intro l2 h
    rw [List.find?_cons] at h
    cases hpa : p a with
    | true => rw [hpa] at h; cases h
    | false =>
      rw [hpa] at h
      rw [List.cons_append, List.find?_cons, hpa]
      exact ih l2 h

/-- The buttons of a block id no stored button refers to are none. -/
theorem blockButtonPositions_fresh (w : World) (bid : Nat)
    (h : ∀ b ∈ w.buttons, b.contentBlockId ≠ bid) :
    blockButtonPositions w bid = [] := by
  unfold blockButtonPositions
  have : w.buttons.filter (fun b => b.contentBlockId == bid) = [] := by
    rw [List.filter_eq_nil_iff]
    intro b hb
    simpa using h b hb
  rw [this]
  rfl

/-- A run of characters all satisfying the predicate, then a failing one,
is exactly what `takeWhile` takes. -/
theorem takeWhile_append_stop (p : Char → Bool) :
    ∀ (l1 : Str) (c : Char) (l2 : Str), (∀ x ∈ l1, p x = true) →
    p c = false → ((l1 ++ c :: l2).takeWhile p) = l1 := by
  intro l1
  induction l1 with
  | nil => intro c l2 _ hc; simp [List.takeWhile, hc]
  | cons a rest ih =>
    intro c l2 h1 hc
    have ha : p a = true := h1 a (by simp)
    rw [List.cons_append, List.takeWhile_cons, if_pos ha]
    rw [ih c l2 (fun x hx => h1 x (by simp [hx])) hc]

/-- For a slash-free segment, the final path segment of `rules/<seg>` is
the segment itself. -/
theorem lastSegment_rules (seg : Str) (hseg : '/' ∉ seg) :
    lastSegment (chars "rules/" ++ seg) = seg := by
  unfold lastSegment
  rw [List.reverse_append]
  rw [show (chars "rules/").reverse = '/' :: chars "selur" from rfl]
  rw [takeWhile_append_stop _ seg.reverse '/' (chars "selur")
    (fun x hx => by
      rw [List.mem_reverse] at hx
      simp only [ne_eq, decide_eq_true_eq]
      exact fun he => hseg (he ▸ hx))
    (by decide)]
  exact List.reverse_reverse seg

/-! ## Helper lemmas about embedded strings -/

/-- Every string starts with each of its own prefixes. -/
theorem strStartsWith_take (s : Str) (n : Nat) :
    strStartsWith s (s.take n) = true := by
  induction s generalizing n with
  | nil => cases n <;> rfl
  | cons c cs ih =>
    cases n with
    | zero => rfl
    | succ n => simp [strStartsWith, ih]

/-- The loop body of `has_permission` agrees with the amended per-grant
decision. -/
theorem permissionStep_eq_amendedStep (p : EditorPermission) (slug : Str)
    (sect : Option Str) :
    permissionStep p slug sect = amendedStep p slug sect := by
  unfold permissionStep amendedStep
  by_cases hstar : p.pageSlug == chars "*"
  · simp [hstar]
  · simp only [hstar, Bool.false_eq_true, if_false]
    by_cases hend : strEndsWith p.pageSlug (chars "/*")
    · by_cases hpre : strStartsWith slug (strDropRight p.pageSlug 2)
      · by_cases hsec : sectionMatches p.sectionId sect
        · simp [hend, hpre, hsec]
        · simp [hend, hpre, hsec]
      · -- the prefix test failed, so the pattern cannot equal the slug:
        -- a pattern ending in `/*` starts with its own first `length - 2`
        -- characters.
        have hne : (p.pageSlug == slug) = false := by
          by_cases h : p.pageSlug == slug
          · exfalso
            have hs : p.pageSlug = slug := by
              exact eq_of_beq h
            rw [← hs] at hpre
            have := strStartsWith_take p.pageSlug (p.pageSlug.length - 2)
            rw [strDropRight] at hpre
            rw [this] at hpre
            exact Bool.true_eq_false ▸ hpre rfl
          · simpa using h
        simp [hend, hpre, hne]
    · simp [hend]

/-- `has_permission` is exactly the amended first-decision-wins fold. -/
theorem hasPermission_eq_amendedAuthorize (perms : List EditorPermission)
    (slug : Str) (sect : Option Str) :
    hasPermission perms slug sect = amendedAuthorize perms slug sect := by
  induction perms with
  | nil => rfl
  | cons p rest ih =>
    unfold hasPermission amendedAuthorize
    rw [List.findSome?_cons]
    rw [← permissionStep_eq_amendedStep]
    cases h : permissionStep p slug sect with
    | none => simpa [h, amendedAuthorize] using ih
    | some b => simp [h]

/-! ## Demo fixtures

Concrete users, forms and stores used to instantiate the claims; the
teams editor mirrors the seeded demo data of src/app.py lines 687-695. -/

/-- The seeded teams editor: a single `teams/*` grant. -/
def teamsEditor : UserRec :=
  ⟨chars "editor_teams", [⟨chars "teams/*", none, true⟩]⟩

/-- A store holding only the page `rules/general-rules` with an empty
document. -/
def rulesWorld : World :=
  { pages := [⟨1, chars "rules/general-rules", chars "General Rules",
      chars "{}", 0⟩],
    blocks := [], buttons := [], nextId := 2 }

/-- A demo user for the concrete scenarios. -/
def demoUser : UserRec := ⟨chars "admin", [⟨chars "*", none, true⟩]⟩

/-- A demo button form targeting `home` / `main-nav`. -/
def demoForm : ButtonForm :=
  ⟨chars "home", chars "main-nav", chars "New Button", chars "",
    chars "#", chars "internal", chars ""⟩

/-- The empty store. -/
def emptyWorld : World := ⟨[], [], [], 1⟩

/-- A store whose only page carries a malformed content document. -/
def malformedWorld : World :=
  { pages := [⟨1, chars "p", chars "P", chars "not json", 0⟩],
    blocks := [], buttons := [], nextId := 2 }

/-! ## Claims -/

/-- C1, counterexample: the claim says `authorize` returns the `can_edit`
value of the first grant whose page pattern matches and whose section
matches.  A `*` grant with `can_edit = False` refutes it: the code returns
`True` outright (src/models.py lines 30-31), ignoring both `can_edit` and
the section test, while the claim's reading returns `False`.  A sectioned
`*` grant with a mismatched query section also matches in the code though
the claim says no grant matches. -/
theorem C1_counterexample :
    hasPermission [⟨chars "*", none, false⟩] (chars "home") none = true ∧
    specAuthorize [⟨chars "*", none, false⟩] (chars "home") none = false ∧
    hasPermission [⟨chars "*", some (chars "x"), false⟩] (chars "p")
      (some (chars "y")) = true ∧
    specAuthorize [⟨chars "*", some (chars "x"), false⟩] (chars "p")
      (some (chars "y")) = false := by
  exact ⟨rfl, rfl, rfl, rfl⟩

/-- C1 (amended): `has_permission` iterates the grants in stored insertion
order and the first grant that decides wins, never a later one; a `*`
grant decides `true` immediately, regardless of its `can_edit` value and
without any section check; any other grant decides its `can_edit` value
when its page matches per the code (the slug starts with the pattern minus
its final two characters, or equals the pattern) and its section matches;
when no grant decides, the result is `false`. -/
theorem C1_theorem :
    (∀ (perms : List EditorPermission) (slug : Str) (sect : Option Str),
      hasPermission perms slug sect = amendedAuthorize perms slug sect) ∧
    (∀ (perms : List EditorPermission) (slug : Str) (sect : Option Str),
      (∀ p ∈ perms, amendedStep p slug sect = none) →
      hasPermission perms slug sect = false) := by
  refine ⟨hasPermission_eq_amendedAuthorize, ?_⟩
  intro perms slug sect hnone
  rw [hasPermission_eq_amendedAuthorize]
  unfold amendedAuthorize
  have key : ∀ ps : List EditorPermission,
      (∀ p ∈ ps, amendedStep p slug sect = none) →
      (ps.findSome? fun p => amendedStep p slug sect) = none := by
    intro ps
    induction ps with
    | nil => intro _; rfl
    | cons p rest ih =>
      intro h
      rw [List.findSome?_cons, h p (by simp)]
      exact ih fun q hq => h q (by simp [hq])
  rw [key perms hnone]
  rfl

/-- C1 witness: the second part applied to a user whose only grant decides
nothing for the queried slug. -/
theorem C1_witness :
    hasPermission [⟨chars "teams/*", none, true⟩] (chars "home") none =
      false :=
  C1_theorem.2 [⟨chars "teams/*", none, true⟩] (chars "home") none
    (by intro p hp; simp at hp; rw [hp]; rfl)

/-- C2: the claim says both write endpoints detect authorization failure
before any store mutation.  The code checks only `@login_required`
(src/app.py lines 326, 356): the seeded teams editor, not authorized for
`rules/general-rules` (`can_edit` is `False`), still gets `success: true`
from both endpoints, and the store is mutated. -/
theorem C2_theorem :
    canEdit (some teamsEditor) (chars "rules/general-rules") none = false ∧
    (updatePageContent (some teamsEditor) 5 (chars "rules/general-rules")
      (chars "<p>x</p>") rulesWorld).1 = Outcome.ok none ∧
    (updatePageContent (some teamsEditor) 5 (chars "rules/general-rules")
      (chars "<p>x</p>") rulesWorld).2 ≠ rulesWorld ∧
    (∃ p : PageRec,
      findPage ((updatePageContent (some teamsEditor) 5
        (chars "rules/general-rules") (chars "<p>x</p>") rulesWorld).2)
        (chars "rules/general-rules") = some p ∧
      getContent p.contentJson = some (Json.obj (.cons (chars "html")
        (.str (chars "<p>x</p>")) .nil))) ∧
    (createButton (some teamsEditor) 5
      { demoForm with pageSlug := chars "rules/general-rules" }
      rulesWorld).1 = Outcome.ok (some 3) ∧
    (createButton (some teamsEditor) 5
      { demoForm with pageSlug := chars "rules/general-rules" }
      rulesWorld).2.buttons ≠ rulesWorld.buttons := by
  refine ⟨rfl, rfl, by decide, ⟨_, rfl, rfl⟩, rfl, by decide⟩

/-- C3, counterexample: the claim says a prefix grant matches exactly the
slugs starting with the pattern minus the trailing `*` (slash kept), so
`teams/*` should not match `teams`.  The code strips two characters
(src/models.py line 33), so the prefix is `teams` and the slug `teams`
(and even `teamsters`) matches. -/
theorem C3_counterexample :
    hasPermission [⟨chars "teams/*", none, true⟩] (chars "teams") none =
      true ∧
    specPageMatches (chars "teams/*") (chars "teams") = false ∧
    specAuthorize [⟨chars "teams/*", none, true⟩] (chars "teams") none =
      false ∧
    hasPermission [⟨chars "teams/*", none, true⟩] (chars "teamsters") none =
      true := by
  exact ⟨rfl, rfl, rfl, rfl⟩

/-- C3 (amended): a grant whose page pattern ends in `/*` matches exactly
the slugs that start with the pattern minus its trailing two characters
(the slash is not part of the required prefix): `teams/*` matches
`teams/trainer`, and also `teams` and `teamsters`, but not
`other/teams/x`. -/
theorem C3_theorem :
    (∀ (slug : Str) (b : Bool),
      hasPermission [⟨chars "teams/*", none, b⟩] slug none =
        (strStartsWith slug (chars "teams") && b)) ∧
    hasPermission [⟨chars "teams/*", none, true⟩] (chars "teams/trainer")
      none = true ∧
    hasPermission [⟨chars "teams/*", none, true⟩] (chars "teams") none =
      true ∧
    hasPermission [⟨chars "teams/*", none, true⟩] (chars "teamsters") none =
      true ∧
    hasPermission [⟨chars "teams/*", none, true⟩] (chars "other/teams/x")
      none = false := by
  refine ⟨?_, rfl, rfl, rfl, rfl⟩
  intro slug b
  have h1 : (chars "teams/*" == chars "*") = false := rfl
  have h2 : strEndsWith (chars "teams/*") (chars "/*") = true := rfl
  have h3 : strDropRight (chars "teams/*") 2 = chars "teams" := rfl
  have h4 : sectionMatches none none = true := rfl
  cases h : strStartsWith slug (chars "teams") with
  | true =>
    simp [hasPermission, permissionStep, h1, h2, h3, h4, h]
  | false =>
    have h5 : (chars "teams/*" == slug) = false := by
      apply beq_eq_false_iff_ne.mpr
      intro he
      rw [← he] at h
      exact absurd h (by decide)
    simp [hasPermission, permissionStep, h1, h2, h3, h4, h, h5]

/-- C3 witness: the prefix-grant equivalence evaluated at a concrete
slug. -/
theorem C3_witness :
    hasPermission [⟨chars "teams/*", none, true⟩] (chars "teams/x") none =
      (strStartsWith (chars "teams/x") (chars "teams") && true) :=
  C3_theorem.1 (chars "teams/x") true

/-- C4, counterexample: the claim says a stored string that fails to parse
is recovered locally as the empty document.  The code wraps nothing in a
try/except (src/models.py lines 64-65): `json.loads` raises, modelled as
`none`, which is not the empty document. -/
theorem C4_counterexample :
    getContent (chars "not json") = none ∧
    getContent (chars "not json") ≠ some (Json.obj .nil) := by
  refine ⟨rfl, ?_⟩
  rw [show getContent (chars "not json") = none from rfl]
  simp

/-- C4 (amended): only an empty (falsy) stored string is treated as the
empty document; a non-empty stored string that fails to parse raises, and
the error propagates to the caller: the update endpoint aborts with a
server error and performs no mutation. -/
theorem C4_theorem :
    getContent [] = some (Json.obj .nil) ∧
    (∀ (u : UserRec) (now : Nat) (slug newHtml : Str) (w : World)
      (page : PageRec), findPage w slug = some page →
      getContent page.contentJson = none →
      updatePageContent (some u) now slug newHtml w =
        (Outcome.serverError, w)) := by
  refine ⟨rfl, ?_⟩
  intro u now slug newHtml w page hfind hget
  have hgp : getOrCreatePage now slug w = (page, w) := by
    unfold getOrCreatePage
    rw [hfind]
  unfold updatePageContent
  rw [hgp]
  simp only [hget]

/-- C4 witness: a store whose page holds the unparsable string `not json`
makes the update endpoint fail without mutation. -/
theorem C4_witness :
    updatePageContent (some demoUser) 3 (chars "p") (chars "x")
      malformedWorld = (Outcome.serverError, malformedWorld) :=
  C4_theorem.2 demoUser 3 (chars "p") (chars "x") malformedWorld
    ⟨1, chars "p", chars "P", chars "not json", 0⟩ rfl rfl

/-- C5: updating a page's HTML sets the `html` key, leaves every other key
of the document untouched (a pre-existing key is still readable together
with the new `html`), persists by full-document replace and stamps
`updated_at`. -/
theorem C5_theorem (u : UserRec) (now : Nat) (slug newHtml : Str) (w : World)
    (page : PageRec) (kvs : JsonFields)
    (hnd : (w.pages.map PageRec.id).Nodup)
    (hfind : findPage w slug = some page)
    (hdoc : page.contentJson = dumpsV (Json.obj kvs))
    (hwf : wfJ (Json.obj kvs) = true) :
    ∃ page' : PageRec,
      (updatePageContent (some u) now slug newHtml w).1 = Outcome.ok none ∧
      findPage (updatePageContent (some u) now slug newHtml w).2 slug =
        some page' ∧
      page'.updatedAt = now ∧
      getContent page'.contentJson =
        some (Json.obj (insertKey kvs (chars "html") (.str newHtml))) ∧
      getKey (insertKey kvs (chars "html") (.str newHtml)) (chars "html") =
        some (.str newHtml) ∧
      (∀ (a : Str) (v : Json), a ≠ chars "html" → getKey kvs a = some v →
        getKey (insertKey kvs (chars "html") (.str newHtml)) a = some v) := by
  have hgp : getOrCreatePage now slug w = (page, w) := by
    unfold getOrCreatePage
    rw [hfind]
  have hget : getContent page.contentJson = some (Json.obj kvs) := by
    rw [hdoc]
    exact getContent_setContent (Json.obj kvs) hwf
  have h1 : nodupKeys kvs = true := by
    rw [wfJ] at hwf; simp at hwf; exact hwf.1
  have h2 : wfF kvs = true := by
    rw [wfJ] at hwf; simp at hwf; exact hwf.2
  have hstep : updatePageContent (some u) now slug newHtml w =
      (match getContent (getOrCreatePage now slug w).1.contentJson with
        | none => (Outcome.serverError, w)
        | some doc =>
          match doc with
          | .obj kvs2 =>
            (Outcome.ok none, setPage (getOrCreatePage now slug w).2
              { (getOrCreatePage now slug w).1 with
                  contentJson := setContent (Json.obj
                    (insertKey kvs2 (chars "html") (.str newHtml))),
                  updatedAt := now })
          | _ => (Outcome.serverError, w)) := rfl
  have hget2 : getContent (getOrCreatePage now slug w).1.contentJson =
      some (Json.obj kvs) := by
    rw [hgp]
    exact hget
  have hrun : updatePageContent (some u) now slug newHtml w =
      (Outcome.ok none, setPage w
        { page with
            contentJson := setContent (Json.obj
              (insertKey kvs (chars "html") (.str newHtml))),
            updatedAt := now }) := by
    rw [hstep, hget2, hgp]
  refine ⟨{ page with
      contentJson := setContent (Json.obj
        (insertKey kvs (chars "html") (.str newHtml))),
      updatedAt := now }, ?_, ?_, rfl, ?_,
    getKey_insertKey_same kvs (chars "html") (.str newHtml), ?_⟩
  · rw [hrun]
  · rw [hrun]
    show findPage (setPage w _) slug = _
    unfold findPage setPage
    exact find?_replace_by_id slug w.pages page _ hnd hfind rfl rfl
  · show getContent (setContent _) = _
    apply getContent_setContent
    rw [wfJ]
    simp [nodupKeys_insertKey kvs _ _ h1,
      wfF_insertKey kvs (chars "html") (.str newHtml) rfl h2]
  · intro a v hne hgk
    rw [getKey_insertKey_ne kvs (chars "html") a (.str newHtml) hne]
    exact hgk

/-- A store whose only page holds the document `{"a": 1}`. -/
def c5World : World :=
  { pages := [⟨1, chars "p", chars "P",
      dumpsV (Json.obj (.cons (chars "a") (.num 1) .nil)), 0⟩],
    blocks := [], buttons := [], nextId := 2 }

/-- C5 witness: the update succeeds on a page holding `{"a": 1}`. -/
theorem C5_witness :
    (updatePageContent (some demoUser) 7 (chars "p") (chars "<p>hi</p>")
      c5World).1 = Outcome.ok none := by
  obtain ⟨p2, hp1, _⟩ := C5_theorem demoUser 7 (chars "p")
    (chars "<p>hi</p>") c5World
    ⟨1, chars "p", chars "P",
      dumpsV (Json.obj (.cons (chars "a") (.num 1) .nil)), 0⟩
    (.cons (chars "a") (.num 1) .nil) (by decide) rfl rfl rfl
  exact hp1

/-- C6: an unauthenticated caller is never authorized, and both write
endpoints turn the request away without touching the store, whatever
grants exist for any user. -/
theorem C6_theorem : ∀ (slug : Str) (sect : Option Str) (now : Nat)
    (html : Str) (form : ButtonForm) (w : World),
    canEdit none slug sect = false ∧
    updatePageContent none now slug html w = (Outcome.redirectLogin, w) ∧
    createButton none now form w = (Outcome.redirectLogin, w) := by
  intro slug sect now html form w
  exact ⟨rfl, rfl, rfl⟩

/-- Lazy page creation does not touch the stored buttons. -/
theorem getOrCreatePage_buttons (now : Nat) (slug : Str) (w : World) :
    (getOrCreatePage now slug w).2.buttons = w.buttons := by
  unfold getOrCreatePage
  cases findPage w slug <;> rfl

/-- Lazy block creation does not touch the stored buttons. -/
theorem getOrCreateBlock_buttons (w : World) (pid : Nat) (sect bt : Str) :
    (getOrCreateBlock w pid sect bt).2.buttons = w.buttons := by
  unfold getOrCreateBlock
  cases findBlock w pid sect <;> rfl

/-- The maximum button position only depends on the stored buttons. -/
theorem maxButtonPosition_congr (w1 w2 : World) (bid : Nat)
    (h : w1.buttons = w2.buttons) :
    maxButtonPosition w1 bid = maxButtonPosition w2 bid := by
  unfold maxButtonPosition blockButtonPositions
  rw [h]

/-- C7: a created button is appended (existing buttons are never
re-indexed) at position `max(existing positions in its block) + 1`, which
is `1` for a block without buttons and `6` when the maximum is `5`; two
buttons created in an initially empty block get positions `1` then `2`. -/
theorem C7_theorem (u : UserRec) (now : Nat) (form : ButtonForm)
    (w : World) :
    (∃ btn : ButtonRec,
      (createButton (some u) now form w).2.buttons = w.buttons ++ [btn] ∧
      btn.position = maxButtonPosition w btn.contentBlockId + 1 ∧
      (blockButtonPositions w btn.contentBlockId = [] → btn.position = 1) ∧
      (maxButtonPosition w btn.contentBlockId = 5 → btn.position = 6)) ∧
    ((createButton (some demoUser) 0 demoForm
        (createButton (some demoUser) 0 demoForm emptyWorld).2).2.buttons.map
      ButtonRec.position) = [1, 2] := by
  constructor
  · set P := getOrCreatePage now form.pageSlug w with hP
    set B := getOrCreateBlock P.2 P.1.id form.sectionId (chars "button_grid")
      with hB
    have hbt2 : B.2.buttons = w.buttons := by
      rw [hB]
      rw [getOrCreateBlock_buttons]
      rw [hP]
      rw [getOrCreatePage_buttons]
    have hrun : createButton (some u) now form w =
        (Outcome.ok (some B.2.nextId),
         { B.2 with
            buttons := B.2.buttons ++
              [⟨B.2.nextId, B.1.id, form.iconUrl, form.label,
                form.descriptionText, form.linkUrl, form.linkType,
                maxButtonPosition B.2 B.1.id + 1⟩],
            nextId := B.2.nextId + 1 }) := rfl
    have hmax : maxButtonPosition B.2 B.1.id =
        maxButtonPosition w B.1.id :=
      maxButtonPosition_congr B.2 w B.1.id hbt2
    have hmain : ∃ btn : ButtonRec,
        (createButton (some u) now form w).2.buttons = w.buttons ++ [btn] ∧
        btn.position = maxButtonPosition w btn.contentBlockId + 1 := by
      refine ⟨⟨B.2.nextId, B.1.id, form.iconUrl, form.label,
        form.descriptionText, form.linkUrl, form.linkType,
        maxButtonPosition w B.1.id + 1⟩, ?_, rfl⟩
      rw [hrun]
      show B.2.buttons ++ _ = w.buttons ++ _
      rw [hbt2, hmax]
    obtain ⟨btn, happ, hpos⟩ := hmain
    refine ⟨btn, happ, hpos, ?_, ?_⟩
    · intro hempty
      rw [hpos]
      unfold maxButtonPosition
      rw [hempty]
      rfl
    · intro h5
      rw [hpos, h5]
      rfl
  · rfl

/-- C7 witness: the first button in the empty store gets position one. -/
theorem C7_witness :
    ((createButton (some demoUser) 0 demoForm emptyWorld).2.buttons.map
      ButtonRec.position) = [1] := by
  obtain ⟨⟨btn, h1, _, h3, _⟩, _⟩ := C7_theorem demoUser 0 demoForm emptyWorld
  rw [h1]
  have hp : btn.position = 1 := h3 rfl
  simp [hp]
  rfl

/-- C8: the block lookup key is `(page, section_id)` only: with an
existing block for the pair, any requested `block_type` returns that
block, all fields unchanged and no store mutation; a block is created
(with the requested type) only when none exists for the pair. -/
theorem C8_theorem : ∀ (w : World) (pid : Nat) (sect bt : Str),
    (∀ b : BlockRec, findBlock w pid sect = some b →
      getOrCreateBlock w pid sect bt = (b, w)) ∧
    (findBlock w pid sect = none →
      ∃ nb : BlockRec,
        getOrCreateBlock w pid sect bt =
          (nb, ⟨w.pages, w.blocks ++ [nb], w.buttons, w.nextId + 1⟩) ∧
        nb.blockType = bt ∧ nb.pageId = pid ∧ nb.sectionId = some sect) := by
  intro w pid sect bt
  constructor
  · intro b hb
    unfold getOrCreateBlock
    rw [hb]
  · intro hnone
    refine ⟨⟨w.nextId, pid, bt, 0, chars "{}", some sect⟩, ?_, rfl, rfl, rfl⟩
    unfold getOrCreateBlock
    rw [hnone]

/-- A store holding a `text` block for `(page 1, main-nav)`. -/
def c8World : World :=
  { pages := [⟨1, chars "home", chars "Home", chars "{}", 0⟩],
    blocks := [⟨2, 1, chars "text", 0, chars "{}", some (chars "main-nav")⟩],
    buttons := [], nextId := 3 }

/-- C8 witness: requesting type `button_grid` against the existing `text`
block for the pair reuses it unchanged. -/
theorem C8_witness :
    getOrCreateBlock c8World 1 (chars "main-nav") (chars "button_grid") =
      (⟨2, 1, chars "text", 0, chars "{}", some (chars "main-nav")⟩,
       c8World) :=
  (C8_theorem c8World 1 (chars "main-nav") (chars "button_grid")).1
    ⟨2, 1, chars "text", 0, chars "{}", some (chars "main-nav")⟩ rfl

/-- C9: the first access of an unknown slug creates the page with a
humanized title — the generic page route humanizing the whole slug, the
rules route humanizing only the route segment (the final path segment of
the created slug) — and a second access of the same slug creates no new
record. -/
theorem C9_theorem :
    (∀ (now : Nat) (slug : Str) (w : World), findPage w slug = none →
      ∃ p : PageRec,
        pageRouteGetOrCreate now slug w =
          (p, { w with pages := w.pages ++ [p], nextId := w.nextId + 1 }) ∧
        p.title = humanizeSlug slug ∧ p.slug = slug ∧
        (∀ now2 : Nat,
          pageRouteGetOrCreate now2 slug
            (pageRouteGetOrCreate now slug w).2 =
          (p, (pageRouteGetOrCreate now slug w).2))) ∧
    (∀ (now : Nat) (seg : Str) (w : World),
      findPage w (chars "rules/" ++ seg) = none →
      ∃ p : PageRec,
        rulesDetailGetOrCreate now seg w =
          (p, { w with pages := w.pages ++ [p], nextId := w.nextId + 1 }) ∧
        p.title = humanizeSlug seg ∧ p.slug = chars "rules/" ++ seg ∧
        ('/' ∉ seg → p.title = humanizeSlug (lastSegment p.slug)) ∧
        (∀ now2 : Nat,
          rulesDetailGetOrCreate now2 seg
            (rulesDetailGetOrCreate now seg w).2 =
          (p, (rulesDetailGetOrCreate now seg w).2))) ∧
    humanizeSlug (chars "general-rules") = chars "General Rules" ∧
    humanizeSlug (chars "rules/general-rules") =
      chars "Rules/General Rules" := by
  refine ⟨?_, ?_, rfl, rfl⟩
  · intro now slug w hnone
    have hrun : pageRouteGetOrCreate now slug w =
        (⟨w.nextId, slug, humanizeSlug slug, chars "{}", now⟩,
         { w with
            pages := w.pages ++
              [⟨w.nextId, slug, humanizeSlug slug, chars "{}", now⟩],
            nextId := w.nextId + 1 }) := by
      unfold pageRouteGetOrCreate getOrCreatePage
      rw [hnone]
    refine ⟨_, hrun, rfl, rfl, ?_⟩
    intro now2
    rw [hrun]
    unfold pageRouteGetOrCreate getOrCreatePage findPage
    unfold findPage at hnone
    rw [find?_append_none _ w.pages _ hnone]
    rw [List.find?_cons_of_pos (p := fun x : PageRec => x.slug == slug) _
      (beq_self_eq_true slug)]
  · intro now seg w hnone
    have hrun : rulesDetailGetOrCreate now seg w =
        (⟨w.nextId, chars "rules/" ++ seg, humanizeSlug seg, chars "{}",
          now⟩,
         { w with
            pages := w.pages ++
              [⟨w.nextId, chars "rules/" ++ seg, humanizeSlug seg,
                chars "{}", now⟩],
            nextId := w.nextId + 1 }) := by
      unfold rulesDetailGetOrCreate
      rw [hnone]
    refine ⟨_, hrun, rfl, rfl, ?_, ?_⟩
    · intro hseg
      show humanizeSlug seg = humanizeSlug (lastSegment (chars "rules/" ++ seg))
      rw [lastSegment_rules seg hseg]
    · intro now2
      rw [hrun]
      unfold rulesDetailGetOrCreate findPage
      unfold findPage at hnone
      rw [find?_append_none _ w.pages _ hnone]
      rw [List.find?_cons_of_pos
        (p := fun x : PageRec => x.slug == chars "rules/" ++ seg) _
        (beq_self_eq_true (chars "rules/" ++ seg))]

/-- C9 witness: creating `about-us` through the generic route titles it
`About Us`. -/
theorem C9_witness :
    (pageRouteGetOrCreate 0 (chars "about-us") emptyWorld).1.title =
      chars "About Us" := by
  obtain ⟨p, h1, h2, _, _⟩ := C9_theorem.1 0 (chars "about-us") emptyWorld rfl
  rw [h1]
  show p.title = _
  rw [h2]
  rfl

/-- C10: serializing a document with `set_content` and reading it back
with `get_content` returns an equal document, for any document a Python
dict can hold (objects with pairwise-distinct keys). -/
theorem C10_theorem (d : Json) (hwf : wfJ d = true) :
    getContent (setContent d) = some d :=
  getContent_setContent d hwf

/-- C10 witness: a nested mixed document round-trips. -/
theorem C10_witness :
    getContent (setContent (Json.obj (.cons (chars "html")
      (.str (chars "<p a=\x22x\x22>hi</p>"))
      (.cons (chars "count") (.num (-3))
        (.cons (chars "tags")
          (.arr (.cons (.str (chars "a")) (.cons .null
            (.cons (.bool true) .nil)))) .nil))))) =
    some (Json.obj (.cons (chars "html")
      (.str (chars "<p a=\x22x\x22>hi</p>"))
      (.cons (chars "count") (.num (-3))
        (.cons (chars "tags")
          (.arr (.cons (.str (chars "a")) (.cons .null
            (.cons (.bool true) .nil)))) .nil)))) :=
  C10_theorem _ rfl

end FaWiki
